import Mathlib

/-!
# Argon2id password hashing: the encoded-hash format

A shallow embedding of `argon2.go`: `Hash`, `Verify`, `Stringify` and `Parse`,
together with the library routines they call (decimal formatting and parsing,
unpadded strict base64, the anchored regular expression of `Parse`, and the
constant-time comparison).  Go strings and byte slices are lists of bytes.
The key-derivation primitive `argon2.IDKey`, the entropy source and the host
CPU count are parameters of the operations that use them.  A call of
`argon2.IDKey` may panic; `Hash` and `Verify` then return nothing (`none`).
-/

namespace Argon2

/-! ## Bytes and strings -/

/-- A byte.  Go strings and `[]byte` values are modelled as `List Byte`. -/
abbrev Byte := Fin 256

/-- The byte with the given code (reduced modulo 256, as Go's `byte(n)`). -/
def byte (n : Nat) : Byte := ⟨n % 256, Nat.mod_lt n (by decide)⟩

/-- The bytes of an ASCII string literal of the source. -/
def lit (s : String) : List Byte := s.toList.map (fun c => byte c.toNat)

/-- The errors that `Parse` and `Hash` can meet.  `NumErrorSyntax` and
`NumErrorRange` stand for `*strconv.NumError` wrapping `strconv.ErrSyntax` and
`strconv.ErrRange`; `CorruptInputError` is `base64.CorruptInputError` (its
offset is not modelled); `RandError` is a failure of `crypto/rand`. -/
inductive Error where
  | ErrInvalidEncodedHash
  | ErrVersionMismatch
  | NumErrorSyntax
  | NumErrorRange
  | CorruptInputError
  | RandError
  deriving DecidableEq, Repr

deriving instance DecidableEq for Except

/-! ## Decimal formatting (`%v` of an integer) and `strconv.Atoi` -/

/-- The ASCII digit of a value below ten. -/
def digitChar (d : Nat) : Byte := byte (48 + d % 10)

/-- Worker of `formatDec`: peels decimal digits off `n`, least significant
first, in front of `acc`. -/
def formatDecAux : Nat → Nat → List Byte → List Byte
  | 0, _, acc => acc
  | fuel + 1, n, acc =>
    if n < 10 then digitChar n :: acc
    else formatDecAux fuel (n / 10) (digitChar (n % 10) :: acc)

/-- Decimal text of a natural number, as `%v` prints an unsigned integer. -/
def formatDec (n : Nat) : List Byte := formatDecAux (n + 1) n []

/-- The class `\d` of the regular expression, and the digits of `strconv`. -/
def isDigit (c : Byte) : Bool := decide (48 ≤ c.val) && decide (c.val ≤ 57)

/-- The number of bits of Go's `int` on the platform. -/
def intSize : Nat := 64

/-- The digit loop of `strconv.ParseUint` in base 10: a byte that is no digit
is a syntax error, a value above `maxVal` a range error. -/
def parseUintLoop (maxVal : Nat) : List Byte → Nat → Except Error Nat
  | [], n => .ok n
  | c :: cs, n =>
    if isDigit c then
      if n * 10 + (c.val - 48) > maxVal then .error .NumErrorRange
      else parseUintLoop maxVal cs (n * 10 + (c.val - 48))
    else .error .NumErrorSyntax

/-- Model of `strconv.Atoi`: optional sign, then decimal digits; the value has
to fit a signed integer of `intSize` bits. -/
def Atoi (s : List Byte) : Except Error Int :=
  match s with
  | [] => .error .NumErrorSyntax
  | c :: rest =>
    let neg : Bool := c.val == 45
    let body := if c.val == 43 || c.val == 45 then rest else s
    if body.isEmpty then .error .NumErrorSyntax
    else
      match parseUintLoop (2 ^ intSize - 1) body 0 with
      | .error .NumErrorSyntax => .error .NumErrorSyntax
      | r =>
        let un : Nat := match r with
          | .ok n => n
          | .error _ => 2 ^ intSize - 1
        let cutoff : Nat := 2 ^ (intSize - 1)
        if !neg && decide (un ≥ cutoff) then .error .NumErrorRange
        else if neg && decide (un > cutoff) then .error .NumErrorRange
        else .ok (if neg then -(un : Int) else (un : Int))

/-- Go's conversion `uint32(x)` of an `int`. -/
def toUint32 (x : Int) : Nat := (x % 4294967296).toNat

/-- Go's conversion `uint8(x)` of an `int`. -/
def toUint8 (x : Int) : Nat := (x % 256).toNat

/-! ## Base64: `base64.RawStdEncoding.Strict()` -/

/-- The standard base64 alphabet (`encodeStd` of `encoding/base64`). -/
def encodeStd : List Byte :=
  lit "ABCDEFGHIJKLMNOPQRSTUVWXYZabcdefghijklmnopqrstuvwxyz0123456789+/"

/-- The table lookup `enc.encode[v & 0x3F]`. -/
def encodeChar (v : Nat) : Byte := encodeStd.getD (v % 64) 0

/-- The table `enc.decodeMap`: the index of a byte in the alphabet, `none`
(`0xff` in Go) for a byte outside it. -/
def decodeMap (c : Byte) : Option Nat := encodeStd.indexOf? c

/-- Model of `EncodeToString` without padding: three bytes give four
characters, a rest of two bytes three characters, a rest of one byte two. -/
def EncodeToString : List Byte → List Byte
  | a :: b :: c :: rest =>
    let val := a.val * 65536 + b.val * 256 + c.val
    encodeChar (val / 262144) :: encodeChar (val / 4096) :: encodeChar (val / 64)
      :: encodeChar val :: EncodeToString rest
  | [a, b] =>
    let val := a.val * 65536 + b.val * 256
    [encodeChar (val / 262144), encodeChar (val / 4096), encodeChar (val / 64)]
  | [a] =>
    let val := a.val * 65536
    [encodeChar (val / 262144), encodeChar (val / 4096)]
  | [] => []

/-- The end of `decodeQuantum`: the sextets collected for one quantum become
bytes.  Four sextets give three bytes; three give two and two give one, and
strict mode requires the unused trailing bits to be zero; a single sextet is
corrupt input. -/
def quantumBytes (q : List Nat) : Except Error (List Byte) :=
  match q with
  | [a, b, c, d] =>
    let val := a * 262144 + b * 4096 + c * 64 + d
    .ok [byte (val / 65536), byte (val / 256), byte val]
  | [a, b, c] =>
    let val := a * 262144 + b * 4096 + c * 64
    if byte val ≠ 0 then .error .CorruptInputError
    else .ok [byte (val / 65536), byte (val / 256)]
  | [a, b] =>
    let val := a * 262144 + b * 4096
    if byte (val / 256) ≠ 0 ∨ byte val ≠ 0 then .error .CorruptInputError
    else .ok [byte (val / 65536)]
  | _ => .error .CorruptInputError

/-- The loop of `Decode`, one input byte at a time; `q` holds the sextets of
the quantum being read.  Carriage return and line feed are skipped wherever
they stand; any other byte outside the alphabet is corrupt input (there is no
padding character). -/
def decodeLoop : List Byte → List Nat → Except Error (List Byte)
  | [], q => if q.isEmpty then .ok [] else quantumBytes q
  | c :: cs, q =>
    match decodeMap c with
    | some v =>
      if q.length = 3 then
        match quantumBytes (q ++ [v]) with
        | .error e => .error e
        | .ok bs =>
          match decodeLoop cs [] with
          | .error e => .error e
          | .ok rest => .ok (bs ++ rest)
      else decodeLoop cs (q ++ [v])
    | none =>
      if c.val = 10 ∨ c.val = 13 then decodeLoop cs q
      else .error .CorruptInputError

/-- Model of `encoder.DecodeString`. -/
def DecodeString (s : List Byte) : Except Error (List Byte) := decodeLoop s []

/-! ## The regular expression of `Parse` -/

/-- The rest of `s` after the literal `p`, when `s` starts with `p`. -/
def stripPrefix : List Byte → List Byte → Option (List Byte)
  | [], s => some s
  | _ :: _, [] => none
  | a :: p, b :: s => if a = b then stripPrefix p s else none

/-- A greedy `c+` for a character class `c`: the longest run of bytes of the
class, which has to be non-empty, and the rest of the input. -/
def plus1 (c : Byte → Bool) (s : List Byte) : Option (List Byte × List Byte) :=
  if (s.takeWhile c).isEmpty then none else some (s.takeWhile c, s.dropWhile c)

/-- The class `[^$]`. -/
def notDollar (c : Byte) : Bool := decide (c.val ≠ 36)

/-- The class `.`, every character but the line feed. -/
def notNewline (c : Byte) : Bool := decide (c.val ≠ 10)

/-- Model of `re.FindStringSubmatch(s)` for the expression
`^\$argon2id\$v=(\d+)\$m=(\d+),t=(\d+),p=(\d+)\$([^$]+)\$(.+)$`:
the whole match and the six groups, or the empty list when `s` does not match.
Every class is followed by a literal outside it (or by the end of the text), so
the greedy run is the only way to match.  The library matches runes; the
literals and the bounds of the classes are ASCII, so matching byte by byte
gives the same groups. -/
def FindStringSubmatch (s : List Byte) : List (List Byte) :=
  match stripPrefix (lit "$argon2id$v=") s with
  | none => []
  | some r0 =>
  match plus1 isDigit r0 with
  | none => []
  | some (v, r1) =>
  match stripPrefix (lit "$m=") r1 with
  | none => []
  | some r2 =>
  match plus1 isDigit r2 with
  | none => []
  | some (m, r3) =>
  match stripPrefix (lit ",t=") r3 with
  | none => []
  | some r4 =>
  match plus1 isDigit r4 with
  | none => []
  | some (t, r5) =>
  match stripPrefix (lit ",p=") r5 with
  | none => []
  | some r6 =>
  match plus1 isDigit r6 with
  | none => []
  | some (p, r7) =>
  match stripPrefix (lit "$") r7 with
  | none => []
  | some r8 =>
  match plus1 notDollar r8 with
  | none => []
  | some (salt, r9) =>
  match stripPrefix (lit "$") r9 with
  | none => []
  | some key =>
    if key.isEmpty || !key.all notNewline then []
    else [s, v, m, t, p, salt, key]

/-! ## `fmt.Sprintf` with the verb `%v` -/

/-- An argument of `Sprintf`: an integer or a string. -/
inductive Arg where
  | int (n : Nat)
  | str (s : List Byte)

/-- The text `%v` prints for an argument. -/
def Arg.format : Arg → List Byte
  | .int n => formatDec n
  | .str s => s

/-- Model of `fmt.Sprintf` for format strings whose only verb is `%v`: each
`%v` is replaced by the next argument (a verb without an argument prints
`%!v(MISSING)`, a `%` at the very end `%!(NOVERB)`); other bytes are copied.
Arguments left over are not reported in this model. -/
def Sprintf : List Byte → List Arg → List Byte
  | [], _ => []
  | [c], _ => if c.val = 37 then lit "%!(NOVERB)" else [c]
  | c :: d :: rest, args =>
    if c.val = 37 ∧ d.val = 118 then
      match args with
      | [] => lit "%!v(MISSING)" ++ Sprintf rest []
      | a :: as => a.format ++ Sprintf rest as
    else c :: Sprintf (d :: rest) args

/-! ## The package `argon2` -/

/-- The constant `argon2.Version` of `golang.org/x/crypto/argon2` (`0x13`). -/
def Version : Nat := 19

/-- The struct `Param`.  `Time`, `Memory` and `KeyLen` are `uint32` and
`Threads` is `uint8` in the source; see `Param.InRange`. -/
structure Param where
  Salt : List Byte
  Time : Nat
  Memory : Nat
  Threads : Nat
  KeyLen : Nat
  deriving DecidableEq, Repr

/-- The numeric fields are values of their Go types. -/
def Param.InRange (p : Param) : Prop :=
  p.Time < 2 ^ 32 ∧ p.Memory < 2 ^ 32 ∧ p.Threads < 2 ^ 8 ∧ p.KeyLen < 2 ^ 32

/-- The call `argon2.IDKey(password, salt, time, memory, threads, keyLen)` of
`golang.org/x/crypto/argon2`, a parameter of the model: the key it returns, or
`none` when it panics. -/
abbrev KDF := List Byte → List Byte → Nat → Nat → Nat → Nat → Option (List Byte)

/-- What the model takes from the library about `argon2.IDKey`: it panics when
`time < 1` or `threads < 1` (the two checks at the start of `deriveKey`); with
`time`, `threads` and `keyLen` of at least one it returns a key; and a key that
it returns has exactly `keyLen` bytes.  Nothing is taken for `keyLen = 0`,
and exhaustion of memory is not modelled. -/
def KDF.Contract (IDKey : KDF) : Prop :=
  ∀ pw salt t m th n,
    ((t < 1 ∨ th < 1) → IDKey pw salt t m th n = none) ∧
    (1 ≤ t → 1 ≤ th → 1 ≤ n → ∃ key, IDKey pw salt t m th n = some key) ∧
    (∀ key, IDKey pw salt t m th n = some key → key.length = n)

/-- The function `Stringify`. -/
def Stringify (key : List Byte) (p : Param) : List Byte :=
  Sprintf (lit "$argon2id$v=%v$m=%v,t=%v,p=%v$%v$%v")
    [.int Version, .int p.Memory, .int p.Time, .int p.Threads,
     .str (EncodeToString p.Salt), .str (EncodeToString key)]

/-- The function `Parse`. -/
def Parse (s : List Byte) : Except Error (List Byte × Param) :=
  let ms := FindStringSubmatch s
  if ms.length ≠ 7 then .error .ErrInvalidEncodedHash
  else
    match Atoi (ms.getD 1 []) with
    | .error e => .error e
    | .ok version =>
    if version ≠ (Version : Int) then .error .ErrVersionMismatch
    else
    match Atoi (ms.getD 2 []) with
    | .error e => .error e
    | .ok memory =>
    match Atoi (ms.getD 3 []) with
    | .error e => .error e
    | .ok time =>
    match Atoi (ms.getD 4 []) with
    | .error e => .error e
    | .ok threads =>
    match DecodeString (ms.getD 5 []) with
    | .error e => .error e
    | .ok salt =>
    match DecodeString (ms.getD 6 []) with
    | .error e => .error e
    | .ok key =>
      .ok (key, { Salt := salt, Time := toUint32 time, Memory := toUint32 memory,
                  Threads := toUint8 threads, KeyLen := key.length % 2 ^ 32 })

/-- The accumulator of `subtle.ConstantTimeCompare`: the bitwise or of the
bytewise exclusive ors. -/
def xorAcc : List Byte → List Byte → Nat → Nat
  | a :: x, b :: y, v => xorAcc x y (v ||| (a.val ^^^ b.val))
  | _, _, v => v

/-- Model of `subtle.ConstantTimeCompare`: `1` when the slices have the same
length and the same bytes, `0` otherwise. -/
def ConstantTimeCompare (x y : List Byte) : Nat :=
  if x.length ≠ y.length then 0
  else if xorAcc x y 0 = 0 then 1 else 0

/-- The function `Verify`: its result, or `none` when the call of
`argon2.IDKey` panics. -/
def Verify (IDKey : KDF) (password hash : List Byte) : Option Bool :=
  match Parse hash with
  | .error _ => some false
  | .ok (key, p) =>
    match IDKey password p.Salt p.Time p.Memory p.Threads p.KeyLen with
    | none => none
    | some newKey => some (ConstantTimeCompare key newKey == 1)

/-- The entropy source of one call: the byte that `rand.Read` writes at each
position of a buffer, and the error that it returns, if any. -/
structure Rand where
  bytes : Nat → Byte
  err : Option Error

/-- Model of `rand.Read(buf)`: the buffer keeps its length and gets the bytes
of the source; the error is returned next to it. -/
def Rand.Read (r : Rand) (buf : List Byte) : List Byte × Option Error :=
  ((List.range buf.length).map r.bytes, r.err)

/-- The function `generateRandomSalt`: a buffer of `length` bytes
(`make([]byte, length)`) filled by `rand.Read`, and the error of `rand.Read`. -/
def generateRandomSalt (r : Rand) (length : Nat) : List Byte × Option Error :=
  let buf : List Byte := List.replicate length 0
  r.Read buf

/-- The function `Hash`; `numCPU` is the value of `runtime.NumCPU()`.  The
result is `none` when the call of `argon2.IDKey` panics. -/
def Hash (IDKey : KDF) (r : Rand) (numCPU : Nat) (password : List Byte) :
    Option (List Byte) :=
  match generateRandomSalt r 16 with
  | (_, some _) => some []
  | (salt, none) =>
    let p : Param :=
      { Salt := salt, Time := 1, Memory := 64 * 1024, Threads := numCPU % 256, KeyLen := 32 }
    match IDKey password p.Salt p.Time p.Memory p.Threads p.KeyLen with
    | none => none
    | some key => some (Stringify key p)

/-! ## Notions used by the statements -/

/-- The value of a decimal digit string read after the value `acc`. -/
def decValue (acc : Nat) (ds : List Byte) : Nat :=
  ds.foldl (fun a c => a * 10 + (c.val - 48)) acc

/-- A string without its carriage returns and line feeds, the bytes that the
base64 decoder skips. -/
def stripNL (s : List Byte) : List Byte :=
  s.filter (fun c => decide (c.val ≠ 10) && decide (c.val ≠ 13))

/-- The language of the regular expression of `Parse`: `s` is the prefix
`$argon2id$v=`, digits `v`, `$m=`, digits `m`, `,t=`, digits `t`, `,p=`, digits
`p`, `$`, a segment `salt` without `$`, `$`, and a segment `key` without line
feed; the six groups are not empty. -/
def Matches (s v m t p salt key : List Byte) : Prop :=
  s = lit "$argon2id$v=" ++ (v ++ (lit "$m=" ++ (m ++ (lit ",t=" ++ (t ++ (lit ",p=" ++
        (p ++ (lit "$" ++ (salt ++ (lit "$" ++ key))))))))))
  ∧ (v ≠ [] ∧ v.all isDigit = true) ∧ (m ≠ [] ∧ m.all isDigit = true)
  ∧ (t ≠ [] ∧ t.all isDigit = true) ∧ (p ≠ [] ∧ p.all isDigit = true)
  ∧ (salt ≠ [] ∧ salt.all notDollar = true) ∧ (key ≠ [] ∧ key.all notNewline = true)

/-- The steps of `Parse` after the expression has matched, as a function of the
six groups. -/
def parseGroups (v m t p salt key : List Byte) : Except Error (List Byte × Param) :=
  match Atoi v with
  | .error e => .error e
  | .ok version =>
  if version ≠ (Version : Int) then .error .ErrVersionMismatch
  else
  match Atoi m with
  | .error e => .error e
  | .ok memory =>
  match Atoi t with
  | .error e => .error e
  | .ok time =>
  match Atoi p with
  | .error e => .error e
  | .ok threads =>
  match DecodeString salt with
  | .error e => .error e
  | .ok saltBytes =>
  match DecodeString key with
  | .error e => .error e
  | .ok keyBytes =>
    .ok (keyBytes, { Salt := saltBytes, Time := toUint32 time, Memory := toUint32 memory,
                     Threads := toUint8 threads, KeyLen := keyBytes.length % 2 ^ 32 })

/-- The text of an encoded hash up to and including the `$` in front of the
key segment. -/
def hashPrefix (p : Param) : List Byte :=
  lit "$argon2id$v=" ++ (formatDec Version ++ (lit "$m=" ++ (formatDec p.Memory ++
    (lit ",t=" ++ (formatDec p.Time ++ (lit ",p=" ++ (formatDec p.Threads ++
      (lit "$" ++ (EncodeToString p.Salt ++ lit "$")))))))))

/-- A decimal digit string without leading zeros: digits, at least one, and
only the string `0` starts with `0`. -/
def Canonical (ds : List Byte) : Prop :=
  ds ≠ [] ∧ ds.all isDigit = true ∧ (ds.head? = some 48 → ds = [48])

/-- An encoded hash written the way `Stringify` writes it: a string of the
language whose decimal fields have no leading zeros, whose memory and time
fit 32 bits and whose parallelism fits 8 bits, and whose salt and key segments
hold no carriage return or line feed. -/
def CanonicalHash (s : List Byte) : Prop :=
  ∃ v m t p salt key, Matches s v m t p salt key ∧
    Canonical v ∧ (Canonical m ∧ decValue 0 m < 2 ^ 32) ∧
    (Canonical t ∧ decValue 0 t < 2 ^ 32) ∧ (Canonical p ∧ decValue 0 p < 2 ^ 8) ∧
    stripNL salt = salt ∧ stripNL key = key

/-- Regular expressions, as far as the expression of `Parse` uses them: a
literal text, a character class, `r+` and concatenation. -/
inductive RE where
  | text (l : List Byte)
  | cls (c : Byte → Bool)
  | plus (r : RE)
  | seq (r s : RE)

/-- The strings that a regular expression matches from their first to their
last byte. -/
inductive RE.Accepts : RE → List Byte → Prop where
  | text (l : List Byte) : RE.Accepts (.text l) l
  | cls (c : Byte → Bool) (x : Byte) (h : c x = true) : RE.Accepts (.cls c) [x]
  | plusOne (r : RE) (s : List Byte) (h : RE.Accepts r s) : RE.Accepts (.plus r) s
  | plusMore (r : RE) (s u : List Byte) (h : RE.Accepts r s) (hu : RE.Accepts (.plus r) u) :
      RE.Accepts (.plus r) (s ++ u)
  | seq (r q : RE) (s u : List Byte) (h : RE.Accepts r s) (hu : RE.Accepts q u) :
      RE.Accepts (.seq r q) (s ++ u)

/-- The expression of `Parse`,
`^\$argon2id\$v=(\d+)\$m=(\d+),t=(\d+),p=(\d+)\$([^$]+)\$(.+)$`, between its
anchors and without the marks of its groups. -/
def hashRE : RE :=
  .seq (.text (lit "$argon2id$v=")) (.seq (.plus (.cls isDigit))
    (.seq (.text (lit "$m=")) (.seq (.plus (.cls isDigit))
      (.seq (.text (lit ",t=")) (.seq (.plus (.cls isDigit))
        (.seq (.text (lit ",p=")) (.seq (.plus (.cls isDigit))
          (.seq (.text (lit "$")) (.seq (.plus (.cls notDollar))
            (.seq (.text (lit "$")) (.plus (.cls notNewline))))))))))))

/-- The eight bits of a byte, most significant first. -/
def bitsOf (b : Byte) : List Nat :=
  [b.val / 128 % 2, b.val / 64 % 2, b.val / 32 % 2, b.val / 16 % 2,
   b.val / 8 % 2, b.val / 4 % 2, b.val / 2 % 2, b.val % 2]

/-- The value of a group of bits, most significant first. -/
def bitsValue (l : List Nat) : Nat := l.foldl (fun a x => 2 * a + x) 0

/-- A bit string cut into groups of six bits, each read as a number; a last
group of fewer bits is filled up with zero bits on the right. -/
def sextets : List Nat → List Nat
  | x5 :: x4 :: x3 :: x2 :: x1 :: x0 :: rest =>
    bitsValue [x5, x4, x3, x2, x1, x0] :: sextets rest
  | [] => []
  | l => [bitsValue l * 2 ^ (6 - l.length)]

/-- Base64 as RFC 4648 describes it, without padding: the bits of the input,
in groups of six, each group written as its character of the alphabet. -/
def base64Spec (bs : List Byte) : List Byte :=
  (sextets (bs.flatMap bitsOf)).map encodeChar

/-! ## Stand-ins for the examples -/

/-- A key-derivation function for the examples: it panics for `time < 1` or
`threads < 1` and otherwise returns `keyLen` bytes that depend on every
argument. -/
def sampleKDF : KDF := fun pw salt t m th n =>
  if t < 1 ∨ th < 1 then none
  else some ((List.range n).map
    (fun i => byte (i + pw.length + 3 * salt.length + t + m + th)))

/-- A key-derivation function that panics for `time < 1` or `threads < 1` and
otherwise returns `keyLen` zero bytes. -/
def zeroKDF : KDF := fun _ _ t _ th n =>
  if t < 1 ∨ th < 1 then none else some (List.replicate n 0)

/-- An entropy source that succeeds. -/
def sampleRand : Rand := { bytes := fun i => byte (7 * i + 1), err := none }

/-- An entropy source that fails. -/
def failingRand : Rand := { bytes := fun _ => 0, err := some .RandError }

/-- Parameters for the examples. -/
def sampleParam : Param :=
  { Salt := lit "0123456789abcdef", Time := 1, Memory := 65536, Threads := 8, KeyLen := 32 }

/-- A second entropy source that succeeds, with other bytes than `sampleRand`. -/
def sampleRand2 : Rand := { bytes := fun i => byte (3 * i + 2), err := none }

/-- A key of `2 ^ 32` bytes. -/
def longKey : List Byte := List.replicate 4294967296 0

/-! # Lemmas -/

/-! ## Decimal text -/

theorem formatDecAux_eq (n : Nat) :
    ∀ fuel acc, n < fuel → formatDecAux fuel n acc = formatDec n ++ acc := by
  induction n using Nat.strong_induction_on with
  | _ n ih =>
    intro fuel acc hlt
    obtain ⟨f, rfl⟩ : ∃ f, fuel = f + 1 := ⟨fuel - 1, by omega⟩
    by_cases h10 : n < 10
    · simp [formatDec, formatDecAux, h10]
    · have hdiv : n / 10 < n := by omega
      have e1 : formatDecAux (f + 1) n acc
          = formatDecAux f (n / 10) (digitChar (n % 10) :: acc) := by
        simp [formatDecAux, h10]
      have e2 : formatDec n = formatDecAux n (n / 10) [digitChar (n % 10)] := by
        simp [formatDec, formatDecAux, h10]
      rw [e1, e2, ih (n / 10) hdiv f _ (by omega), ih (n / 10) hdiv n _ hdiv]
      simp

theorem formatDec_small {n : Nat} (h : n < 10) : formatDec n = [digitChar n] := by
  simp [formatDec, formatDecAux, h]

theorem formatDec_step {n : Nat} (h : ¬ n < 10) :
    formatDec n = formatDec (n / 10) ++ [digitChar (n % 10)] := by
  have e2 : formatDec n = formatDecAux n (n / 10) [digitChar (n % 10)] := by
    simp [formatDec, formatDecAux, h]
  rw [e2, formatDecAux_eq (n / 10) n _ (by omega)]

theorem digitChar_val (d : Nat) : (digitChar d).val = 48 + d % 10 := by
  simp [digitChar, byte]; omega

theorem isDigit_digitChar (d : Nat) : isDigit (digitChar d) = true := by
  simp [isDigit, digitChar_val]; omega

theorem formatDec_all_isDigit (n : Nat) : (formatDec n).all isDigit = true := by
  induction n using Nat.strong_induction_on with
  | _ n ih =>
    by_cases h10 : n < 10
    · simp [formatDec_small h10, isDigit_digitChar]
    · rw [formatDec_step h10, List.all_append, ih (n / 10) (by omega)]
      simp [isDigit_digitChar]

theorem formatDec_ne_nil (n : Nat) : formatDec n ≠ [] := by
  by_cases h10 : n < 10
  · simp [formatDec_small h10]
  · simp [formatDec_step h10]

theorem decValue_append (acc : Nat) (xs ys : List Byte) :
    decValue acc (xs ++ ys) = decValue (decValue acc xs) ys := by
  simp [decValue, List.foldl_append]

theorem decValue_formatDec (n : Nat) : decValue 0 (formatDec n) = n := by
  induction n using Nat.strong_induction_on with
  | _ n ih =>
    by_cases h10 : n < 10
    · simp [formatDec_small h10, decValue, digitChar_val]; omega
    · rw [formatDec_step h10, decValue_append, ih (n / 10) (by omega)]
      simp [decValue, digitChar_val]; omega

theorem decValue_mono (ds : List Byte) : ∀ acc, acc ≤ decValue acc ds := by
  induction ds with
  | nil => intro acc; simp [decValue]
  | cons c cs ih =>
    intro acc
    have h := ih (acc * 10 + (c.val - 48))
    simp only [decValue, List.foldl_cons] at h ⊢
    omega

theorem parseUintLoop_digits (maxVal : Nat) (ds : List Byte) :
    ∀ acc, ds.all isDigit = true → acc ≤ maxVal →
      parseUintLoop maxVal ds acc =
        if decValue acc ds ≤ maxVal then .ok (decValue acc ds)
        else .error .NumErrorRange := by
  induction ds with
  | nil => intro acc _ hacc; simp [parseUintLoop, decValue, hacc]
  | cons c cs ih =>
    intro acc hall hacc
    simp only [List.all_cons, Bool.and_eq_true] at hall
    have hstep : decValue acc (c :: cs) = decValue (acc * 10 + (c.val - 48)) cs := by
      simp [decValue]
    by_cases hbig : acc * 10 + (c.val - 48) > maxVal
    · have := decValue_mono cs (acc * 10 + (c.val - 48))
      have hgt : ¬ decValue acc (c :: cs) ≤ maxVal := by rw [hstep]; omega
      simp [parseUintLoop, hall.1, hbig, hgt]
    · simp only [parseUintLoop, hall.1, hbig, if_true, if_false]
      rw [ih _ hall.2 (by omega), hstep]

theorem Atoi_digits (ds : List Byte) (hne : ds ≠ []) (hall : ds.all isDigit = true) :
    Atoi ds = if decValue 0 ds < 2 ^ 63 then .ok (decValue 0 ds : Int)
              else .error .NumErrorRange := by
  obtain ⟨c, cs, rfl⟩ := List.exists_cons_of_ne_nil hne
  have hc : isDigit c = true := by
    simp only [List.all_cons, Bool.and_eq_true] at hall; exact hall.1
  have h48 : 48 ≤ c.val ∧ c.val ≤ 57 := by simpa [isDigit] using hc
  have hn43 : (c.val == 43) = false := by simp; omega
  have hn45 : (c.val == 45) = false := by simp; omega
  have hloop := parseUintLoop_digits (2 ^ 64 - 1) (c :: cs) 0 hall (by omega)
  have hI : 2 ^ intSize - 1 = 2 ^ 64 - 1 := rfl
  unfold Atoi
  rw [hI]
  simp only [hn43, hn45, Bool.or_self, Bool.false_eq_true, if_false, List.isEmpty_cons]
  rw [hloop]
  by_cases h64 : decValue 0 (c :: cs) ≤ 2 ^ 64 - 1
  · rw [if_pos h64]
    by_cases h63 : decValue 0 (c :: cs) < 2 ^ 63
    · have h : ¬ (9223372036854775808 ≤ decValue 0 (c :: cs)) := by omega
      rw [if_pos h63]
      simp [intSize, h]
    · have h : (9223372036854775808 ≤ decValue 0 (c :: cs)) := by omega
      rw [if_neg h63]
      simp [intSize, h]
  · have h63 : ¬ decValue 0 (c :: cs) < 2 ^ 63 := by omega
    rw [if_neg h64, if_neg h63]
    simp [intSize]

/-! ## Base64 -/

set_option maxRecDepth 100000 in
theorem decodeMap_table :
    ∀ i : Fin 64, decodeMap (encodeStd.getD i.val 0) = some i.val := by
  decide

set_option maxRecDepth 100000 in
theorem decodeMap_inv_table :
    ∀ c : Byte, (decodeMap c).all
      (fun v => decide (v < 64) && decide (encodeStd.getD v 0 = c)) = true := by
  decide

set_option maxRecDepth 100000 in
theorem decodeMap_special_table :
    ∀ c : Byte, c.val = 10 ∨ c.val = 13 ∨ c.val = 36 ∨ c.val = 61 → decodeMap c = none := by
  decide

theorem decodeMap_encodeChar (v : Nat) : decodeMap (encodeChar v) = some (v % 64) :=
  decodeMap_table ⟨v % 64, Nat.mod_lt v (by decide)⟩

theorem decodeMap_some {c : Byte} {v : Nat} (h : decodeMap c = some v) :
    v < 64 ∧ encodeChar v = c := by
  have ht := decodeMap_inv_table c
  rw [h] at ht
  simp only [Option.all_some, Bool.and_eq_true, decide_eq_true_eq] at ht
  refine ⟨ht.1, ?_⟩
  rw [encodeChar, Nat.mod_eq_of_lt ht.1]
  exact ht.2

theorem decodeMap_some_val {c : Byte} {v : Nat} (h : decodeMap c = some v) :
    c.val ≠ 10 ∧ c.val ≠ 13 ∧ c.val ≠ 36 ∧ c.val ≠ 61 := by
  refine ⟨?_, ?_, ?_, ?_⟩ <;> intro hc <;>
    simp [decodeMap_special_table c (by simp [hc])] at h

theorem encodeChar_val (v : Nat) :
    (encodeChar v).val ≠ 10 ∧ (encodeChar v).val ≠ 13 ∧ (encodeChar v).val ≠ 36
      ∧ (encodeChar v).val ≠ 61 :=
  decodeMap_some_val (decodeMap_encodeChar v)

theorem encodeChar_mod (v : Nat) : encodeChar (v % 64) = encodeChar v := by
  simp [encodeChar]

theorem decodeLoop_cons_some {c : Byte} {v : Nat} (cs : List Byte) (q : List Nat)
    (h : decodeMap c = some v) (hq : q.length ≠ 3) :
    decodeLoop (c :: cs) q = decodeLoop cs (q ++ [v]) := by
  simp [decodeLoop, h, hq]

theorem decodeLoop_cons_full {c : Byte} {v : Nat} (cs : List Byte) (q : List Nat)
    (h : decodeMap c = some v) (hq : q.length = 3) :
    decodeLoop (c :: cs) q =
      match quantumBytes (q ++ [v]) with
      | .error e => .error e
      | .ok bs =>
        match decodeLoop cs [] with
        | .error e => .error e
        | .ok rest => .ok (bs ++ rest) := by
  simp [decodeLoop, h, hq]

theorem decodeLoop_cons_skip {c : Byte} (cs : List Byte) (q : List Nat)
    (h : c.val = 10 ∨ c.val = 13) : decodeLoop (c :: cs) q = decodeLoop cs q := by
  have hn : decodeMap c = none := decodeMap_special_table c (by omega)
  simp [decodeLoop, hn, h]

theorem byte_val (n : Nat) : (byte n).val = n % 256 := rfl

theorem byte_ne_zero_iff (n : Nat) : byte n ≠ 0 ↔ n % 256 ≠ 0 := by
  constructor
  · intro h h0; exact h (Fin.ext (by simpa [byte_val] using h0))
  · intro h h0; exact h (by have := congrArg Fin.val h0; simpa [byte_val] using this)

theorem quantumBytes_three (a b c : Byte) :
    quantumBytes [(a.val * 65536 + b.val * 256 + c.val) / 262144 % 64,
      (a.val * 65536 + b.val * 256 + c.val) / 4096 % 64,
      (a.val * 65536 + b.val * 256 + c.val) / 64 % 64,
      (a.val * 65536 + b.val * 256 + c.val) % 64] = .ok [a, b, c] := by
  have ha := a.isLt; have hb := b.isLt; have hc := c.isLt
  simp only [quantumBytes, Except.ok.injEq, List.cons.injEq, and_true]
  refine ⟨Fin.ext ?_, Fin.ext ?_, Fin.ext ?_⟩ <;> simp only [byte_val] <;> omega

theorem quantumBytes_two (a b : Byte) :
    quantumBytes [(a.val * 65536 + b.val * 256) / 262144 % 64,
      (a.val * 65536 + b.val * 256) / 4096 % 64,
      (a.val * 65536 + b.val * 256) / 64 % 64] = .ok [a, b] := by
  have ha := a.isLt; have hb := b.isLt
  have hz : ¬ byte (((a.val * 65536 + b.val * 256) / 262144 % 64) * 262144
      + ((a.val * 65536 + b.val * 256) / 4096 % 64) * 4096
      + ((a.val * 65536 + b.val * 256) / 64 % 64) * 64) ≠ 0 := by
    rw [byte_ne_zero_iff]; omega
  simp only [quantumBytes, hz, if_false, Except.ok.injEq, List.cons.injEq, and_true]
  refine ⟨Fin.ext ?_, Fin.ext ?_⟩ <;> simp only [byte_val] <;> omega

theorem quantumBytes_one (a : Byte) :
    quantumBytes [(a.val * 65536) / 262144 % 64, (a.val * 65536) / 4096 % 64] = .ok [a] := by
  have ha := a.isLt
  have hz : ¬ (byte ((((a.val * 65536) / 262144 % 64) * 262144
      + ((a.val * 65536) / 4096 % 64) * 4096) / 256) ≠ 0
      ∨ byte (((a.val * 65536) / 262144 % 64) * 262144
      + ((a.val * 65536) / 4096 % 64) * 4096) ≠ 0) := by
    rw [byte_ne_zero_iff, byte_ne_zero_iff]; omega
  simp only [quantumBytes, hz, if_false, Except.ok.injEq, List.cons.injEq, and_true]
  refine Fin.ext ?_
  simp only [byte_val]; omega

/-- Decoding undoes encoding. -/
theorem DecodeString_EncodeToString (bs : List Byte) :
    DecodeString (EncodeToString bs) = .ok bs := by
  unfold DecodeString
  induction bs using EncodeToString.induct with
  | case1 a b c rest ih =>
    simp only [EncodeToString]
    rw [decodeLoop_cons_some _ _ (decodeMap_encodeChar _) (by simp),
      decodeLoop_cons_some _ _ (decodeMap_encodeChar _) (by simp),
      decodeLoop_cons_some _ _ (decodeMap_encodeChar _) (by simp),
      decodeLoop_cons_full _ _ (decodeMap_encodeChar _) (by simp)]
    simp only [List.nil_append, List.cons_append, ih]
    rw [quantumBytes_three]
    simp
  | case2 a b =>
    simp only [EncodeToString]
    rw [decodeLoop_cons_some _ _ (decodeMap_encodeChar _) (by simp),
      decodeLoop_cons_some _ _ (decodeMap_encodeChar _) (by simp),
      decodeLoop_cons_some _ _ (decodeMap_encodeChar _) (by simp)]
    simp only [List.nil_append, List.cons_append, decodeLoop, List.isEmpty_cons]
    exact quantumBytes_two a b
  | case3 a =>
    simp only [EncodeToString]
    rw [decodeLoop_cons_some _ _ (decodeMap_encodeChar _) (by simp),
      decodeLoop_cons_some _ _ (decodeMap_encodeChar _) (by simp)]
    simp only [List.nil_append, List.cons_append, decodeLoop, List.isEmpty_cons]
    exact quantumBytes_one a
  | case4 => simp [EncodeToString, decodeLoop]

theorem EncodeToString_all_alphabet (bs : List Byte) :
    ∀ c ∈ EncodeToString bs, ∃ v, decodeMap c = some v := by
  induction bs using EncodeToString.induct with
  | case1 a b c rest ih =>
    intro x hx
    simp only [EncodeToString, List.mem_cons] at hx
    rcases hx with rfl | rfl | rfl | rfl | hx
    · exact ⟨_, decodeMap_encodeChar _⟩
    · exact ⟨_, decodeMap_encodeChar _⟩
    · exact ⟨_, decodeMap_encodeChar _⟩
    · exact ⟨_, decodeMap_encodeChar _⟩
    · exact ih x hx
  | case2 a b =>
    intro x hx
    simp only [EncodeToString, List.mem_cons, List.mem_singleton] at hx
    rcases hx with rfl | rfl | rfl | hx
    · exact ⟨_, decodeMap_encodeChar _⟩
    · exact ⟨_, decodeMap_encodeChar _⟩
    · exact ⟨_, decodeMap_encodeChar _⟩
    · simp at hx
  | case3 a =>
    intro x hx
    simp only [EncodeToString, List.mem_cons, List.mem_singleton] at hx
    rcases hx with rfl | rfl | hx
    · exact ⟨_, decodeMap_encodeChar _⟩
    · exact ⟨_, decodeMap_encodeChar _⟩
    · simp at hx
  | case4 => intro x hx; simp [EncodeToString] at hx

theorem EncodeToString_ne_nil {bs : List Byte} (h : bs ≠ []) : EncodeToString bs ≠ [] := by
  match bs, h with
  | [a], _ => simp [EncodeToString]
  | [a, b], _ => simp [EncodeToString]
  | a :: b :: c :: rest, _ => simp [EncodeToString]

theorem stripNL_cons_keep {c : Byte} (cs : List Byte) (h10 : c.val ≠ 10) (h13 : c.val ≠ 13) :
    stripNL (c :: cs) = c :: stripNL cs := by
  simp [stripNL, h10, h13]

theorem stripNL_cons_skip {c : Byte} (cs : List Byte) (h : c.val = 10 ∨ c.val = 13) :
    stripNL (c :: cs) = stripNL cs := by
  rcases h with h | h <;> simp [stripNL, h]

theorem encodeChar_congr {u v : Nat} (h : u % 64 = v % 64) : encodeChar u = encodeChar v := by
  rw [← encodeChar_mod u, ← encodeChar_mod v, h]

theorem quantumBytes_two_inv {a b : Nat} {bs : List Byte} (hb : b < 64)
    (h : quantumBytes [a, b] = .ok bs) :
    [encodeChar a, encodeChar b] = EncodeToString bs := by
  simp only [quantumBytes] at h
  split at h
  · cases h
  · rename_i hz
    simp only [byte_ne_zero_iff, not_or, not_not] at hz
    cases h
    simp only [EncodeToString, byte_val, List.cons.injEq, and_true]
    exact ⟨encodeChar_congr (by omega), encodeChar_congr (by omega)⟩

theorem quantumBytes_three_inv {a b c : Nat} {bs : List Byte} (hb : b < 64)
    (hc : c < 64) (h : quantumBytes [a, b, c] = .ok bs) :
    [encodeChar a, encodeChar b, encodeChar c] = EncodeToString bs := by
  simp only [quantumBytes] at h
  split at h
  · cases h
  · rename_i hz
    simp only [byte_ne_zero_iff, not_not] at hz
    cases h
    simp only [EncodeToString, byte_val, List.cons.injEq, and_true]
    exact ⟨encodeChar_congr (by omega), encodeChar_congr (by omega),
      encodeChar_congr (by omega)⟩

theorem quantumBytes_four_inv {a b c d : Nat} {bs rest : List Byte}
    (hb : b < 64) (hc : c < 64) (hd : d < 64) (h : quantumBytes [a, b, c, d] = .ok bs) :
    encodeChar a :: encodeChar b :: encodeChar c :: encodeChar d :: EncodeToString rest
      = EncodeToString (bs ++ rest) := by
  simp only [quantumBytes] at h
  cases h
  simp only [List.cons_append, List.nil_append, EncodeToString, byte_val, List.cons.injEq,
    and_true]
  exact ⟨encodeChar_congr (by omega), encodeChar_congr (by omega),
    encodeChar_congr (by omega), encodeChar_congr (by omega), rfl⟩

/-- What the decoder accepts is, once carriage returns and line feeds are
dropped, the encoding of what it returns. -/
theorem decodeLoop_inv (s : List Byte) :
    ∀ (q : List Nat) (bs : List Byte), q.length ≤ 3 → (∀ v ∈ q, v < 64) →
      decodeLoop s q = .ok bs → q.map encodeChar ++ stripNL s = EncodeToString bs := by
  induction s with
  | nil =>
    intro q bs hlen hq h
    match q, hlen, hq with
    | [], _, _ =>
      simp [decodeLoop] at h; subst h; simp [stripNL, EncodeToString]
    | [a], _, _ => simp [decodeLoop, quantumBytes] at h
    | [a, b], _, hq =>
      simp only [decodeLoop, List.isEmpty_cons] at h
      simpa [stripNL] using quantumBytes_two_inv (hq b (by simp)) h
    | [a, b, c], _, hq =>
      simp only [decodeLoop, List.isEmpty_cons] at h
      simpa [stripNL] using
        quantumBytes_three_inv (hq b (by simp)) (hq c (by simp)) h
  | cons c cs ih =>
    intro q bs hlen hq h
    cases hm : decodeMap c with
    | some v =>
      obtain ⟨hv, hcv⟩ := decodeMap_some hm
      obtain ⟨h10, h13, _, _⟩ := decodeMap_some_val hm
      rw [stripNL_cons_keep cs h10 h13]
      by_cases h3 : q.length = 3
      · rw [decodeLoop_cons_full cs q hm h3] at h
        obtain ⟨a, b, d, rfl⟩ : ∃ a b d, q = [a, b, d] := by
          match q, h3 with
          | [a, b, d], _ => exact ⟨a, b, d, rfl⟩
        simp only [List.cons_append, List.nil_append] at h
        cases hqb : quantumBytes [a, b, d, v] with
        | error e => simp [hqb] at h
        | ok bs1 =>
          cases hrest : decodeLoop cs [] with
          | error e => simp [hqb, hrest] at h
          | ok rest =>
            simp only [hqb, hrest, Except.ok.injEq] at h
            subst h
            have ihr := ih [] rest (by simp) (by simp) hrest
            simp only [List.map_nil, List.nil_append] at ihr
            rw [← quantumBytes_four_inv (hq b (by simp))
              (hq d (by simp)) hv hqb, ← ihr, hcv]
            simp
      · rw [decodeLoop_cons_some cs q hm h3] at h
        have := ih (q ++ [v]) bs (by simp; omega)
          (by intro x hx; simp at hx; rcases hx with hx | rfl; exact hq x hx; exact hv) h
        simpa [hcv] using this
    | none =>
      by_cases hnl : c.val = 10 ∨ c.val = 13
      · rw [decodeLoop_cons_skip cs q hnl] at h
        rw [stripNL_cons_skip cs hnl]
        exact ih q bs hlen hq h
      · simp [decodeLoop, hm, hnl] at h

theorem DecodeString_inv {s bs : List Byte} (h : DecodeString s = .ok bs) :
    stripNL s = EncodeToString bs := by
  simpa using decodeLoop_inv s [] bs (by simp) (by simp) h

/-! ## The regular expression -/

theorem stripPrefix_append (p r : List Byte) : stripPrefix p (p ++ r) = some r := by
  induction p with
  | nil => simp [stripPrefix]
  | cons a p ih => simp [stripPrefix, ih]

theorem stripPrefix_eq_some (p : List Byte) :
    ∀ {s r : List Byte}, stripPrefix p s = some r → s = p ++ r := by
  induction p with
  | nil => intro s r h; simpa [stripPrefix] using h
  | cons a p ih =>
    intro s r h
    cases s with
    | nil => simp [stripPrefix] at h
    | cons b s =>
      simp only [stripPrefix] at h
      split at h
      · rename_i hab
        rw [hab, ih h]; rfl
      · cases h

theorem plus1_append (c : Byte → Bool) {a r : List Byte} (hne : a ≠ [])
    (hall : a.all c = true) (hr : ∀ x ∈ r.head?, c x = false) :
    plus1 c (a ++ r) = some (a, r) := by
  have ht : (a ++ r).takeWhile c = a := by
    induction a with
    | nil => cases hne rfl
    | cons x xs ih =>
      simp only [List.all_cons, Bool.and_eq_true] at hall
      simp only [List.cons_append, List.takeWhile_cons, hall.1, if_true, List.cons.injEq,
        true_and]
      cases xs with
      | nil =>
        cases r with
        | nil => simp
        | cons y ys => simp [List.takeWhile_cons, hr y (by simp)]
      | cons y ys => exact ih (by simp) hall.2
  have hd : (a ++ r).dropWhile c = r := by
    have h := List.takeWhile_append_dropWhile c (a ++ r)
    rw [ht] at h
    exact List.append_cancel_left h
  cases a with
  | nil => cases hne rfl
  | cons x xs => simp only [plus1, ht, hd, List.isEmpty_cons]; rfl

theorem plus1_eq_some (c : Byte → Bool) {s a r : List Byte} (h : plus1 c s = some (a, r)) :
    s = a ++ r ∧ a ≠ [] ∧ a.all c = true := by
  unfold plus1 at h
  split at h
  · cases h
  · rename_i hne
    simp only [Option.some.injEq, Prod.mk.injEq] at h
    obtain ⟨rfl, rfl⟩ := h
    refine ⟨(List.takeWhile_append_dropWhile c s).symm, ?_, ?_⟩
    · intro h0; simp [h0] at hne
    · rw [List.all_eq_true]; intro x hx; exact List.mem_takeWhile_imp hx

theorem isDigit_val {c : Byte} (h : isDigit c = true) : 48 ≤ c.val ∧ c.val ≤ 57 := by
  simpa [isDigit] using h

/-- What `FindStringSubmatch` returns: nothing, or the string and six groups
that match the expression. -/
theorem FindStringSubmatch_cases (s : List Byte) :
    FindStringSubmatch s = [] ∨
      ∃ v m t p salt key, Matches s v m t p salt key ∧
        FindStringSubmatch s = [s, v, m, t, p, salt, key] := by
  unfold FindStringSubmatch
  split
  · exact Or.inl rfl
  rename_i r0 h0
  split
  · exact Or.inl rfl
  rename_i v r1 h1
  split
  · exact Or.inl rfl
  rename_i r2 h2
  split
  · exact Or.inl rfl
  rename_i m r3 h3
  split
  · exact Or.inl rfl
  rename_i r4 h4
  split
  · exact Or.inl rfl
  rename_i t r5 h5
  split
  · exact Or.inl rfl
  rename_i r6 h6
  split
  · exact Or.inl rfl
  rename_i p r7 h7
  split
  · exact Or.inl rfl
  rename_i r8 h8
  split
  · exact Or.inl rfl
  rename_i salt r9 h9
  split
  · exact Or.inl rfl
  rename_i key h10
  split
  · exact Or.inl rfl
  rename_i hk
  simp only [Bool.or_eq_true, Bool.not_eq_true', not_or, Bool.not_eq_false,
    List.isEmpty_iff] at hk
  refine Or.inr ⟨v, m, t, p, salt, key, ⟨?_, ?_⟩, rfl⟩
  · have e0 := stripPrefix_eq_some _ h0
    have e1 := (plus1_eq_some _ h1).1
    have e2 := stripPrefix_eq_some _ h2
    have e3 := (plus1_eq_some _ h3).1
    have e4 := stripPrefix_eq_some _ h4
    have e5 := (plus1_eq_some _ h5).1
    have e6 := stripPrefix_eq_some _ h6
    have e7 := (plus1_eq_some _ h7).1
    have e8 := stripPrefix_eq_some _ h8
    have e9 := (plus1_eq_some _ h9).1
    have e10 := stripPrefix_eq_some _ h10
    rw [e0, e1, e2, e3, e4, e5, e6, e7, e8, e9, e10]
  · exact ⟨(plus1_eq_some _ h1).2, (plus1_eq_some _ h3).2, (plus1_eq_some _ h5).2,
      (plus1_eq_some _ h7).2, (plus1_eq_some _ h9).2, hk.1, by simpa using hk.2⟩

/-- A string of the language is matched, with its groups. -/
theorem FindStringSubmatch_of_Matches {s v m t p salt key : List Byte}
    (h : Matches s v m t p salt key) :
    FindStringSubmatch s = [s, v, m, t, p, salt, key] := by
  obtain ⟨hs, hv, hm, ht, hp, hsalt, hkey⟩ := h
  have d1 : ∀ r x, x ∈ (lit "$m=" ++ r).head? → isDigit x = false := by
    intro r x hx
    have : x = 36 := by simpa [lit, byte] using hx.symm
    subst this; decide
  have d2 : ∀ r x, x ∈ (lit ",t=" ++ r).head? → isDigit x = false := by
    intro r x hx
    have : x = 44 := by simpa [lit, byte] using hx.symm
    subst this; decide
  have d3 : ∀ r x, x ∈ (lit ",p=" ++ r).head? → isDigit x = false := by
    intro r x hx
    have : x = 44 := by simpa [lit, byte] using hx.symm
    subst this; decide
  have d4 : ∀ r x, x ∈ (lit "$" ++ r).head? → isDigit x = false := by
    intro r x hx
    have : x = 36 := by simpa [lit, byte] using hx.symm
    subst this; decide
  have d5 : ∀ r x, x ∈ (lit "$" ++ r).head? → notDollar x = false := by
    intro r x hx
    have : x = 36 := by simpa [lit, byte] using hx.symm
    subst this; decide
  have hk : (key.isEmpty || !key.all notNewline) = false := by
    simp [hkey.2, hkey.1]
  unfold FindStringSubmatch
  rw [hs]
  simp only [stripPrefix_append, plus1_append isDigit hv.1 hv.2 (d1 _),
    plus1_append isDigit hm.1 hm.2 (d2 _), plus1_append isDigit ht.1 ht.2 (d3 _),
    plus1_append isDigit hp.1 hp.2 (d4 _), plus1_append notDollar hsalt.1 hsalt.2 (d5 _), hk]
  simp

/-! ## `Stringify` and `Parse` -/

theorem lit_fmt : lit "$argon2id$v=%v$m=%v,t=%v,p=%v$%v$%v" = [36, 97, 114, 103, 111, 110, 50, 105, 100, 36, 118, 61, 37, 118, 36, 109, 61, 37, 118, 44, 116, 61, 37, 118, 44, 112, 61, 37, 118, 36, 37, 118, 36, 37, 118] := by decide
theorem lit1 : lit "$argon2id$v=" = [36, 97, 114, 103, 111, 110, 50, 105, 100, 36, 118, 61] := by decide
theorem lit2 : lit "$m=" = [36, 109, 61] := by decide
theorem lit3 : lit ",t=" = [44, 116, 61] := by decide
theorem lit4 : lit ",p=" = [44, 112, 61] := by decide
theorem lit5 : lit "$" = [36] := by decide

theorem Sprintf_verb (rest : List Byte) (a : Arg) (as : List Arg) :
    Sprintf (37 :: 118 :: rest) (a :: as) = a.format ++ Sprintf rest as := by
  have h : (37 : Byte).val = 37 ∧ (118 : Byte).val = 118 := by decide
  simp only [Sprintf, h, and_self, if_true]

theorem Sprintf_copy {c : Byte} (d : Byte) (rest : List Byte) (args : List Arg)
    (h : c.val ≠ 37) : Sprintf (c :: d :: rest) args = c :: Sprintf (d :: rest) args := by
  simp [Sprintf, h]

/-- The text that `Stringify` builds, piece by piece. -/
theorem Stringify_eq (key : List Byte) (p : Param) :
    Stringify key p =
      lit "$argon2id$v=" ++ (formatDec Version ++ (lit "$m=" ++ (formatDec p.Memory ++
        (lit ",t=" ++ (formatDec p.Time ++ (lit ",p=" ++ (formatDec p.Threads ++
          (lit "$" ++ (EncodeToString p.Salt ++ (lit "$" ++ EncodeToString key)))))))))) := by
  rw [Stringify, lit_fmt, lit1, lit2, lit3, lit4, lit5]
  repeat (first
    | rw [Sprintf_verb]
    | rw [Sprintf_copy _ _ _ (by decide)])
  simp [Sprintf, Arg.format]
theorem EncodeToString_all_notDollar (bs : List Byte) :
    (EncodeToString bs).all notDollar = true := by
  rw [List.all_eq_true]
  intro c hc
  obtain ⟨v, hv⟩ := EncodeToString_all_alphabet bs c hc
  simpa [notDollar] using (decodeMap_some_val hv).2.2.1

theorem EncodeToString_all_notNewline (bs : List Byte) :
    (EncodeToString bs).all notNewline = true := by
  rw [List.all_eq_true]
  intro c hc
  obtain ⟨v, hv⟩ := EncodeToString_all_alphabet bs c hc
  simpa [notNewline] using (decodeMap_some_val hv).1

/-- The output of `Stringify` is in the language of the expression. -/
theorem Matches_Stringify {key : List Byte} {p : Param} (hkey : key ≠ [])
    (hsalt : p.Salt ≠ []) :
    Matches (Stringify key p) (formatDec Version) (formatDec p.Memory) (formatDec p.Time)
      (formatDec p.Threads) (EncodeToString p.Salt) (EncodeToString key) :=
  ⟨Stringify_eq key p, ⟨formatDec_ne_nil _, formatDec_all_isDigit _⟩,
    ⟨formatDec_ne_nil _, formatDec_all_isDigit _⟩,
    ⟨formatDec_ne_nil _, formatDec_all_isDigit _⟩,
    ⟨formatDec_ne_nil _, formatDec_all_isDigit _⟩,
    ⟨EncodeToString_ne_nil hsalt, EncodeToString_all_notDollar _⟩,
    ⟨EncodeToString_ne_nil hkey, EncodeToString_all_notNewline _⟩⟩

theorem Parse_of_not_match {s : List Byte} (h : FindStringSubmatch s = []) :
    Parse s = .error .ErrInvalidEncodedHash := by
  simp [Parse, h]

theorem Parse_of_Matches {s v m t p salt key : List Byte} (h : Matches s v m t p salt key) :
    Parse s = parseGroups v m t p salt key := by
  simp only [Parse, parseGroups, FindStringSubmatch_of_Matches h, List.length_cons,
    List.length_nil, ne_eq, not_true_eq_false, if_false, List.getD_cons_succ,
    List.getD_cons_zero, Nat.reduceAdd]

theorem toUint32_natCast (n : Nat) : toUint32 (n : Int) = n % 2 ^ 32 := by
  simp only [toUint32]; omega

theorem toUint8_natCast (n : Nat) : toUint8 (n : Int) = n % 2 ^ 8 := by
  simp only [toUint8]; omega

theorem Atoi_formatDec {n : Nat} (h : n < 2 ^ 63) : Atoi (formatDec n) = .ok (n : Int) := by
  rw [Atoi_digits _ (formatDec_ne_nil n) (formatDec_all_isDigit n), decValue_formatDec,
    if_pos h]

/-- Decoding undoes encoding, up to the key length, which is reduced to 32
bits. -/
theorem Parse_Stringify {key : List Byte} {p : Param} (hkey : key ≠ [])
    (hsalt : p.Salt ≠ []) (hp : p.InRange) :
    Parse (Stringify key p) =
      .ok (key, { Salt := p.Salt, Time := p.Time, Memory := p.Memory,
                  Threads := p.Threads, KeyLen := key.length % 2 ^ 32 }) := by
  obtain ⟨ht, hm, hth, _⟩ := hp
  rw [Parse_of_Matches (Matches_Stringify hkey hsalt)]
  unfold parseGroups
  rw [Atoi_formatDec (by simp [Version]), Atoi_formatDec (by omega),
    Atoi_formatDec (by omega), Atoi_formatDec (by omega)]
  simp only [ne_eq, not_true_eq_false, if_false, DecodeString_EncodeToString,
    toUint32_natCast, toUint8_natCast]
  rw [Nat.mod_eq_of_lt ht, Nat.mod_eq_of_lt hm, Nat.mod_eq_of_lt hth]

/-! ## The constant-time comparison -/

theorem lor_eq_zero {a b : Nat} : a ||| b = 0 ↔ a = 0 ∧ b = 0 := by
  constructor
  · intro h
    have hb : ∀ i, a.testBit i = false ∧ b.testBit i = false := by
      intro i
      have := congrArg (fun n => Nat.testBit n i) h
      simpa [Nat.testBit_lor] using this
    exact ⟨Nat.eq_of_testBit_eq (fun i => by simp [(hb i).1]),
      Nat.eq_of_testBit_eq (fun i => by simp [(hb i).2])⟩
  · rintro ⟨rfl, rfl⟩; rfl

theorem xorAcc_eq_zero (x : List Byte) :
    ∀ (y : List Byte) (v : Nat), x.length = y.length →
      (xorAcc x y v = 0 ↔ v = 0 ∧ x = y) := by
  induction x with
  | nil =>
    intro y v hlen
    cases y with
    | nil => simp [xorAcc]
    | cons b y => simp at hlen
  | cons a x ih =>
    intro y v hlen
    cases y with
    | nil => simp at hlen
    | cons b y =>
      simp only [List.length_cons, Nat.add_right_cancel_iff] at hlen
      simp only [xorAcc, ih y _ hlen, lor_eq_zero, Nat.xor_eq_zero, List.cons.injEq]
      constructor
      · rintro ⟨⟨hv, hab⟩, hxy⟩; exact ⟨hv, Fin.ext hab, hxy⟩
      · rintro ⟨hv, hab, hxy⟩; exact ⟨⟨hv, congrArg Fin.val hab⟩, hxy⟩

/-- The comparison answers `1` exactly for equal slices. -/
theorem ConstantTimeCompare_eq_one (x y : List Byte) :
    ConstantTimeCompare x y = 1 ↔ x = y := by
  unfold ConstantTimeCompare
  by_cases hlen : x.length = y.length
  · simp only [hlen, ne_eq, not_true_eq_false, if_false]
    by_cases h0 : xorAcc x y 0 = 0
    · simp only [h0, if_true, true_iff]
      exact ((xorAcc_eq_zero x y 0 hlen).1 h0).2
    · simp only [h0, if_false, Nat.zero_ne_one, false_iff]
      intro hxy
      exact h0 ((xorAcc_eq_zero x y 0 hlen).2 ⟨rfl, hxy⟩)
  · simp only [ne_eq, hlen, not_false_eq_true, if_true, Nat.zero_ne_one, false_iff]
    intro hxy; exact hlen (by rw [hxy])

theorem Verify_of_error {IDKey : KDF} {password h : List Byte} {e : Error}
    (hP : Parse h = .error e) : Verify IDKey password h = some false := by
  simp [Verify, hP]

theorem Verify_of_ok {IDKey : KDF} {password h key newKey : List Byte} {p : Param}
    (hP : Parse h = .ok (key, p))
    (hK : IDKey password p.Salt p.Time p.Memory p.Threads p.KeyLen = some newKey) :
    Verify IDKey password h = some (decide (key = newKey)) := by
  simp only [Verify, hP, hK, Option.some.injEq]
  by_cases hk : key = newKey
  · simp [hk, (ConstantTimeCompare_eq_one newKey newKey).2 rfl]
  · have : ConstantTimeCompare key newKey ≠ 1 :=
      fun h1 => hk ((ConstantTimeCompare_eq_one key newKey).1 h1)
    simp [hk, this]

theorem Verify_of_panic {IDKey : KDF} {password h key : List Byte} {p : Param}
    (hP : Parse h = .ok (key, p))
    (hK : IDKey password p.Salt p.Time p.Memory p.Threads p.KeyLen = none) :
    Verify IDKey password h = none := by
  simp [Verify, hP, hK]

/-- `Verify` accepts exactly when `Parse` succeeds and the primitive returns
the parsed key. -/
theorem Verify_iff (IDKey : KDF) (password h : List Byte) :
    Verify IDKey password h = some true ↔
      ∃ key p, Parse h = .ok (key, p) ∧
        IDKey password p.Salt p.Time p.Memory p.Threads p.KeyLen = some key := by
  constructor
  · intro hV
    cases hP : Parse h with
    | error e => rw [Verify_of_error hP] at hV; cases hV
    | ok kp =>
      obtain ⟨key, p⟩ := kp
      cases hK : IDKey password p.Salt p.Time p.Memory p.Threads p.KeyLen with
      | none => rw [Verify_of_panic hP hK] at hV; cases hV
      | some newKey =>
        rw [Verify_of_ok hP hK] at hV
        simp only [Option.some.injEq, decide_eq_true_eq] at hV
        exact ⟨key, p, rfl, by rw [hV]; exact hK⟩
  · rintro ⟨key, p, hP, hK⟩
    rw [Verify_of_ok hP hK]
    simp

/-- `Verify` returns nothing exactly when `Parse` succeeds and the call of the
primitive panics. -/
theorem Verify_none_iff (IDKey : KDF) (password h : List Byte) :
    Verify IDKey password h = none ↔
      ∃ key p, Parse h = .ok (key, p) ∧
        IDKey password p.Salt p.Time p.Memory p.Threads p.KeyLen = none := by
  constructor
  · intro hV
    cases hP : Parse h with
    | error e => rw [Verify_of_error hP] at hV; cases hV
    | ok kp =>
      obtain ⟨key, p⟩ := kp
      cases hK : IDKey password p.Salt p.Time p.Memory p.Threads p.KeyLen with
      | none => exact ⟨key, p, rfl, hK⟩
      | some newKey => rw [Verify_of_ok hP hK] at hV; cases hV
  · rintro ⟨key, p, hP, hK⟩
    exact Verify_of_panic hP hK

/-! ## Facts used by the claims -/

theorem sampleKDF_Contract : KDF.Contract sampleKDF := by
  intro pw salt t m th n
  refine ⟨?_, ?_, ?_⟩
  · intro h
    show (if t < 1 ∨ th < 1 then none else _) = none
    rw [if_pos h]
  · intro ht hth _
    have hg : ¬ (t < 1 ∨ th < 1) := by omega
    refine ⟨(List.range n).map
      (fun i => byte (i + pw.length + 3 * salt.length + t + m + th)), ?_⟩
    show (if t < 1 ∨ th < 1 then none else _) = _
    rw [if_neg hg]
  · intro key hk
    unfold sampleKDF at hk
    split at hk
    · cases hk
    · cases hk; simp

theorem zeroKDF_Contract : KDF.Contract zeroKDF := by
  intro pw salt t m th n
  refine ⟨?_, ?_, ?_⟩
  · intro h
    show (if t < 1 ∨ th < 1 then none else _) = none
    rw [if_pos h]
  · intro ht hth _
    have hg : ¬ (t < 1 ∨ th < 1) := by omega
    refine ⟨List.replicate n 0, ?_⟩
    show (if t < 1 ∨ th < 1 then none else _) = _
    rw [if_neg hg]
  · intro key hk
    unfold zeroKDF at hk
    split at hk
    · cases hk
    · cases hk; simp

theorem generateRandomSalt_length (r : Rand) (length : Nat) :
    (generateRandomSalt r length).1.length = length := by
  simp [generateRandomSalt, Rand.Read]

theorem generateRandomSalt_err (r : Rand) (length : Nat) :
    (generateRandomSalt r length).2 = r.err := rfl

theorem ne_nil_of_length_pos {l : List Byte} (h : 0 < l.length) : l ≠ [] := by
  intro h0; rw [h0] at h; exact Nat.lt_irrefl 0 h

theorem longKey_length : longKey.length = 4294967296 := by
  unfold longKey; exact List.length_replicate _ _

theorem longKey_ne_nil : longKey ≠ [] :=
  ne_nil_of_length_pos (by rw [longKey_length]; decide)

theorem sampleParam_InRange : sampleParam.InRange := by
  unfold Param.InRange sampleParam; norm_num

theorem formatDec_head (n : Nat) : ∃ c cs, formatDec n = c :: cs ∧ (c.val = 48 → n = 0) := by
  induction n using Nat.strong_induction_on with
  | _ n ih =>
    by_cases h10 : n < 10
    · rw [formatDec_small h10]
      exact ⟨digitChar n, [], rfl, by rw [digitChar_val]; omega⟩
    · rw [formatDec_step h10]
      obtain ⟨c, cs, hc, h0⟩ := ih (n / 10) (by omega)
      exact ⟨c, cs ++ [digitChar (n % 10)], by rw [hc]; rfl, by omega⟩

theorem formatDec_Canonical (n : Nat) : Canonical (formatDec n) := by
  refine ⟨formatDec_ne_nil n, formatDec_all_isDigit n, ?_⟩
  obtain ⟨c, cs, hc, h0⟩ := formatDec_head n
  intro hh
  rw [hc] at hh
  simp only [List.head?_cons, Option.some.injEq] at hh
  have hn : n = 0 := h0 (by rw [hh]; rfl)
  subst hn
  decide

theorem EncodeToString_length (bs : List Byte) :
    (EncodeToString bs).length = (4 * bs.length + 2) / 3 := by
  induction bs using EncodeToString.induct with
  | case1 a b c rest ih =>
    simp only [EncodeToString, List.length_cons, ih]; omega
  | case2 a b => simp [EncodeToString]
  | case3 a => simp [EncodeToString]
  | case4 => simp [EncodeToString]

theorem encodeStd_length : encodeStd.length = 64 := by decide

theorem encodeChar_mem (v : Nat) : encodeChar v ∈ encodeStd := by
  unfold encodeChar
  have h : v % 64 < encodeStd.length := by
    rw [encodeStd_length]; exact Nat.mod_lt _ (by decide)
  rw [List.getD_eq_getElem _ _ h]
  exact List.getElem_mem h

theorem EncodeToString_all_mem (bs : List Byte) :
    (EncodeToString bs).all (fun c => decide (c ∈ encodeStd)) = true := by
  rw [List.all_eq_true]
  intro c hc
  obtain ⟨v, hv⟩ := EncodeToString_all_alphabet bs c hc
  rw [← (decodeMap_some hv).2]
  simpa using encodeChar_mem v

theorem not_Matches_of_nil {s : List Byte} (h : FindStringSubmatch s = []) :
    ¬ ∃ v m t p salt key, Matches s v m t p salt key := by
  rintro ⟨v, m, t, p, salt, key, hm⟩
  rw [FindStringSubmatch_of_Matches hm] at h
  cases h

theorem nil_of_not_Matches {s : List Byte}
    (h : ¬ ∃ v m t p salt key, Matches s v m t p salt key) : FindStringSubmatch s = [] := by
  rcases FindStringSubmatch_cases s with h0 | ⟨v, m, t, p, salt, key, hm, _⟩
  · exact h0
  · exact absurd ⟨v, m, t, p, salt, key, hm⟩ h

theorem quantumBytes_error {q : List Nat} {e : Error} (h : quantumBytes q = .error e) :
    e = .CorruptInputError := by
  unfold quantumBytes at h
  split at h
  · cases h
  · dsimp only at h
    split at h
    · cases h; rfl
    · cases h
  · dsimp only at h
    split at h
    · cases h; rfl
    · cases h
  · cases h; rfl

theorem decodeLoop_error (s : List Byte) :
    ∀ (q : List Nat) (e : Error), decodeLoop s q = .error e → e = .CorruptInputError := by
  induction s with
  | nil =>
    intro q e h
    simp only [decodeLoop] at h
    split at h
    · cases h
    · exact quantumBytes_error h
  | cons c cs ih =>
    intro q e h
    simp only [decodeLoop] at h
    split at h
    · split at h
      · split at h
        · cases h; rename_i hq; exact quantumBytes_error hq
        · split at h
          · cases h; rename_i hr; exact ih _ _ hr
          · cases h
      · exact ih _ _ h
    · split at h
      · exact ih _ _ h
      · cases h; rfl

theorem DecodeString_error {s : List Byte} {e : Error} (h : DecodeString s = .error e) :
    e = .CorruptInputError :=
  decodeLoop_error s [] e h

/-- The outcome of `Parse` on a string of the language, field by field. -/
theorem parseGroups_eq {v m t p salt key : List Byte}
    (hv : v ≠ [] ∧ v.all isDigit = true) (hm : m ≠ [] ∧ m.all isDigit = true)
    (ht : t ≠ [] ∧ t.all isDigit = true) (hp : p ≠ [] ∧ p.all isDigit = true) :
    parseGroups v m t p salt key =
      if ¬ decValue 0 v < 2 ^ 63 then .error .NumErrorRange
      else if decValue 0 v ≠ Version then .error .ErrVersionMismatch
      else if ¬ decValue 0 m < 2 ^ 63 then .error .NumErrorRange
      else if ¬ decValue 0 t < 2 ^ 63 then .error .NumErrorRange
      else if ¬ decValue 0 p < 2 ^ 63 then .error .NumErrorRange
      else
        match DecodeString salt with
        | .error e => .error e
        | .ok saltBytes =>
          match DecodeString key with
          | .error e => .error e
          | .ok keyBytes =>
            .ok (keyBytes, { Salt := saltBytes, Time := decValue 0 t % 2 ^ 32,
                             Memory := decValue 0 m % 2 ^ 32,
                             Threads := decValue 0 p % 2 ^ 8,
                             KeyLen := keyBytes.length % 2 ^ 32 }) := by
  unfold parseGroups
  rw [Atoi_digits v hv.1 hv.2, Atoi_digits m hm.1 hm.2, Atoi_digits t ht.1 ht.2,
    Atoi_digits p hp.1 hp.2]
  have hV : Version < 2 ^ 63 := by decide
  by_cases h1 : decValue 0 v < 2 ^ 63
  · rw [if_pos h1, if_neg (not_not.mpr h1)]
    by_cases h2 : decValue 0 v = Version
    · rw [if_neg (not_not.mpr h2)]
      have h2' : ¬ ((decValue 0 v : Int) ≠ (Version : Int)) := by
        rw [h2]; exact not_not.mpr rfl
      simp only [h2', if_false]
      by_cases h3 : decValue 0 m < 2 ^ 63
      · rw [if_pos h3, if_neg (not_not.mpr h3)]
        by_cases h4 : decValue 0 t < 2 ^ 63
        · rw [if_pos h4, if_neg (not_not.mpr h4)]
          by_cases h5 : decValue 0 p < 2 ^ 63
          · rw [if_pos h5, if_neg (not_not.mpr h5)]
            simp only [toUint32_natCast, toUint8_natCast]
          · rw [if_neg h5, if_pos h5]
        · rw [if_neg h4, if_pos h4]
      · rw [if_neg h3, if_pos h3]
    · rw [if_pos h2]
      have h2' : (decValue 0 v : Int) ≠ (Version : Int) := by
        intro h; exact h2 (by exact_mod_cast h)
      show (if (decValue 0 v : Int) ≠ (Version : Int) then _ else _) = _
      rw [if_pos h2']
  · rw [if_neg h1, if_pos h1]

theorem stripNL_eq_self {s : List Byte} (h : ∀ x ∈ s, x.val ≠ 10 ∧ x.val ≠ 13) :
    stripNL s = s := by
  unfold stripNL
  rw [List.filter_eq_self]
  intro x hx
  simp [(h x hx).1, (h x hx).2]

theorem EncodeToString_no_NL (bs : List Byte) :
    ∀ x ∈ EncodeToString bs, x.val ≠ 10 ∧ x.val ≠ 13 := by
  intro x hx
  obtain ⟨v, hv⟩ := EncodeToString_all_alphabet bs x hx
  exact ⟨(decodeMap_some_val hv).1, (decodeMap_some_val hv).2.1⟩

theorem decValue_pos {c : Byte} (cs : List Byte) (hc : isDigit c = true) (h0 : c.val ≠ 48) :
    1 ≤ decValue 0 (c :: cs) := by
  have h1 := decValue_mono cs (0 * 10 + (c.val - 48))
  have h2 : decValue 0 (c :: cs) = decValue (0 * 10 + (c.val - 48)) cs := by
    simp [decValue]
  have := isDigit_val hc
  omega

/-- Formatting undoes reading for a digit string without leading zeros. -/
theorem formatDec_decValue (ds : List Byte) (h : Canonical ds) :
    formatDec (decValue 0 ds) = ds := by
  induction ds using List.reverseRecOn with
  | nil => exact absurd rfl h.1
  | append_singleton xs d ih =>
    obtain ⟨_, hall, hhead⟩ := h
    rw [List.all_append, Bool.and_eq_true] at hall
    have hd : isDigit d = true := by simpa using hall.2
    have hdv := isDigit_val hd
    have hval : decValue 0 (xs ++ [d]) = decValue 0 xs * 10 + (d.val - 48) := by
      rw [decValue_append]; simp [decValue]
    cases xs with
    | nil =>
      have e : decValue 0 ([] ++ [d]) = d.val - 48 := by simp [decValue]
      rw [e, formatDec_small (by omega)]
      simp only [List.nil_append, List.cons.injEq, and_true]
      exact Fin.ext (by rw [digitChar_val]; omega)
    | cons c cs =>
      have hc : isDigit c = true := by
        have := hall.1; simp only [List.all_cons, Bool.and_eq_true] at this; exact this.1
      have hc0 : c.val ≠ 48 := by
        intro h48
        have hc48 : c = 48 := Fin.ext h48
        have := hhead (by simp [hc48])
        simp at this
      have hxs : Canonical (c :: cs) :=
        ⟨by simp, hall.1, fun hh => by
          simp only [List.head?_cons, Option.some.injEq] at hh
          exact absurd (by rw [hh]; rfl) hc0⟩
      have hpos := decValue_pos cs hc hc0
      rw [hval, formatDec_step (by omega)]
      have e1 : (decValue 0 (c :: cs) * 10 + (d.val - 48)) / 10 = decValue 0 (c :: cs) := by
        omega
      have e2 : digitChar ((decValue 0 (c :: cs) * 10 + (d.val - 48)) % 10) = d :=
        Fin.ext (by rw [digitChar_val]; omega)
      rw [e1, e2, ih hxs]

/-- The groups of a string that has the shape of the expression up to the key
segment; the key segment decides whether the string matches. -/
theorem FindStringSubmatch_groups {v m t p salt : List Byte} (key : List Byte)
    (hv : v ≠ [] ∧ v.all isDigit = true) (hm : m ≠ [] ∧ m.all isDigit = true)
    (ht : t ≠ [] ∧ t.all isDigit = true) (hp : p ≠ [] ∧ p.all isDigit = true)
    (hsalt : salt ≠ [] ∧ salt.all notDollar = true) :
    FindStringSubmatch
      (lit "$argon2id$v=" ++ (v ++ (lit "$m=" ++ (m ++ (lit ",t=" ++ (t ++ (lit ",p=" ++
        (p ++ (lit "$" ++ (salt ++ (lit "$" ++ key))))))))))) =
      if (key.isEmpty || !key.all notNewline) = true then []
      else [lit "$argon2id$v=" ++ (v ++ (lit "$m=" ++ (m ++ (lit ",t=" ++ (t ++ (lit ",p=" ++
        (p ++ (lit "$" ++ (salt ++ (lit "$" ++ key)))))))))), v, m, t, p, salt, key] := by
  by_cases hk : (key.isEmpty || !key.all notNewline) = true
  · have d1 : ∀ r x, x ∈ (lit "$m=" ++ r).head? → isDigit x = false := by
      intro r x hx
      have : x = 36 := by simpa [lit, byte] using hx.symm
      subst this; decide
    have d2 : ∀ r x, x ∈ (lit ",t=" ++ r).head? → isDigit x = false := by
      intro r x hx
      have : x = 44 := by simpa [lit, byte] using hx.symm
      subst this; decide
    have d3 : ∀ r x, x ∈ (lit ",p=" ++ r).head? → isDigit x = false := by
      intro r x hx
      have : x = 44 := by simpa [lit, byte] using hx.symm
      subst this; decide
    have d4 : ∀ r x, x ∈ (lit "$" ++ r).head? → isDigit x = false := by
      intro r x hx
      have : x = 36 := by simpa [lit, byte] using hx.symm
      subst this; decide
    have d5 : ∀ r x, x ∈ (lit "$" ++ r).head? → notDollar x = false := by
      intro r x hx
      have : x = 36 := by simpa [lit, byte] using hx.symm
      subst this; decide
    rw [if_pos hk]
    unfold FindStringSubmatch
    simp only [stripPrefix_append, plus1_append isDigit hv.1 hv.2 (d1 _),
      plus1_append isDigit hm.1 hm.2 (d2 _), plus1_append isDigit ht.1 ht.2 (d3 _),
      plus1_append isDigit hp.1 hp.2 (d4 _), plus1_append notDollar hsalt.1 hsalt.2 (d5 _),
      hk, if_true]
  · rw [if_neg hk]
    simp only [Bool.or_eq_true, Bool.not_eq_true', not_or, Bool.not_eq_false,
      List.isEmpty_iff] at hk
    exact FindStringSubmatch_of_Matches ⟨rfl, hv, hm, ht, hp, hsalt, hk.1, hk.2⟩

theorem hashPrefix_append (p : Param) (seg : List Byte) :
    hashPrefix p ++ seg =
      lit "$argon2id$v=" ++ (formatDec Version ++ (lit "$m=" ++ (formatDec p.Memory ++
        (lit ",t=" ++ (formatDec p.Time ++ (lit ",p=" ++ (formatDec p.Threads ++
          (lit "$" ++ (EncodeToString p.Salt ++ (lit "$" ++ seg)))))))))) := by
  simp only [hashPrefix, List.append_assoc]

theorem Stringify_eq_hashPrefix (key : List Byte) (p : Param) :
    Stringify key p = hashPrefix p ++ EncodeToString key := by
  rw [hashPrefix_append, Stringify_eq]

/-- `Parse` on the text of `Stringify` with any key segment in place of the
encoded key. -/
theorem Parse_hashPrefix {p : Param} (seg : List Byte) (hsalt : p.Salt ≠ [])
    (hp : p.InRange) :
    Parse (hashPrefix p ++ seg) =
      if (seg.isEmpty || !seg.all notNewline) = true then .error .ErrInvalidEncodedHash
      else
        match DecodeString seg with
        | .error e => .error e
        | .ok kb =>
          .ok (kb, { Salt := p.Salt, Time := p.Time, Memory := p.Memory,
                     Threads := p.Threads, KeyLen := kb.length % 2 ^ 32 }) := by
  obtain ⟨ht, hm, hth, _⟩ := hp
  have hg := @FindStringSubmatch_groups (formatDec Version) (formatDec p.Memory)
    (formatDec p.Time) (formatDec p.Threads) (EncodeToString p.Salt) seg
    ⟨formatDec_ne_nil _, formatDec_all_isDigit _⟩ ⟨formatDec_ne_nil _, formatDec_all_isDigit _⟩
    ⟨formatDec_ne_nil _, formatDec_all_isDigit _⟩ ⟨formatDec_ne_nil _, formatDec_all_isDigit _⟩
    ⟨EncodeToString_ne_nil hsalt, EncodeToString_all_notDollar _⟩
  rw [← hashPrefix_append] at hg
  by_cases hk : (seg.isEmpty || !seg.all notNewline) = true
  · rw [if_pos hk] at hg
    rw [if_pos hk, Parse_of_not_match hg]
  · rw [if_neg hk]
    simp only [Bool.or_eq_true, Bool.not_eq_true', not_or, Bool.not_eq_false,
      List.isEmpty_iff] at hk
    have hM : Matches (hashPrefix p ++ seg) (formatDec Version) (formatDec p.Memory)
        (formatDec p.Time) (formatDec p.Threads) (EncodeToString p.Salt) seg :=
      ⟨hashPrefix_append p seg, ⟨formatDec_ne_nil _, formatDec_all_isDigit _⟩,
        ⟨formatDec_ne_nil _, formatDec_all_isDigit _⟩,
        ⟨formatDec_ne_nil _, formatDec_all_isDigit _⟩,
        ⟨formatDec_ne_nil _, formatDec_all_isDigit _⟩,
        ⟨EncodeToString_ne_nil hsalt, EncodeToString_all_notDollar _⟩, hk.1, hk.2⟩
    rw [Parse_of_Matches hM]
    unfold parseGroups
    rw [Atoi_formatDec (by simp [Version]), Atoi_formatDec (by omega),
      Atoi_formatDec (by omega), Atoi_formatDec (by omega)]
    simp only [ne_eq, not_true_eq_false, if_false, DecodeString_EncodeToString,
      toUint32_natCast, toUint8_natCast]
    rw [Nat.mod_eq_of_lt ht, Nat.mod_eq_of_lt hm, Nat.mod_eq_of_lt hth]

theorem Stringify_of_CanonicalHash {s k : List Byte} {q : Param} (hc : CanonicalHash s)
    (hP : Parse s = .ok (k, q)) : Stringify k q = s := by
  obtain ⟨v, m, t, p, salt, key, hm, hv, ⟨hmc, hm32⟩, ⟨htc, ht32⟩, ⟨hpc, hp8⟩, hsalt, hkey⟩ :=
    hc
  rw [Parse_of_Matches hm, parseGroups_eq hm.2.1 hm.2.2.1 hm.2.2.2.1 hm.2.2.2.2.1] at hP
  split at hP
  · cases hP
  split at hP
  · cases hP
  rename_i hver
  split at hP
  · cases hP
  split at hP
  · cases hP
  split at hP
  · cases hP
  cases hs : DecodeString salt with
  | error e => rw [hs] at hP; cases hP
  | ok sb =>
    cases hk : DecodeString key with
    | error e => rw [hs, hk] at hP; cases hP
    | ok kb =>
      rw [hs, hk] at hP
      simp only [Except.ok.injEq, Prod.mk.injEq] at hP
      obtain ⟨rfl, rfl⟩ := hP
      have h1 := DecodeString_inv hs
      have h2 := DecodeString_inv hk
      rw [hsalt] at h1
      rw [hkey] at h2
      have hV : Version = decValue 0 v := (not_not.mp hver).symm
      rw [Stringify_eq, hV, formatDec_decValue v hv]
      simp only [Nat.mod_eq_of_lt hm32, Nat.mod_eq_of_lt ht32, Nat.mod_eq_of_lt hp8,
        formatDec_decValue m hmc, formatDec_decValue t htc, formatDec_decValue p hpc,
        ← h1, ← h2]
      exact hm.1.symm

theorem CanonicalHash_sample :
    CanonicalHash (lit "$argon2id$v=19$m=65536,t=1,p=8$c2FsdA$a2V5") := by
  refine ⟨lit "19", lit "65536", lit "1", lit "8", lit "c2FsdA", lit "a2V5", ?_, ?_, ?_, ?_,
    ?_, ?_, ?_⟩
  · unfold Matches; decide
  · unfold Canonical; decide
  · unfold Canonical; decide
  · unfold Canonical; decide
  · unfold Canonical; decide
  · decide
  · decide

/-! ## The expression as a regular expression, and base64 as RFC 4648 -/

theorem RE.accepts_text {l s : List Byte} : RE.Accepts (.text l) s ↔ s = l := by
  constructor
  · intro h; cases h; rfl
  · rintro rfl; exact .text _

theorem RE.accepts_seq {r q : RE} {s : List Byte} :
    RE.Accepts (.seq r q) s ↔ ∃ a b, s = a ++ b ∧ RE.Accepts r a ∧ RE.Accepts q b := by
  constructor
  · intro h; cases h with
    | seq _ _ a b ha hb => exact ⟨a, b, rfl, ha, hb⟩
  · rintro ⟨a, b, rfl, ha, hb⟩; exact .seq r q a b ha hb

theorem RE.accepts_plus_cls_aux {r : RE} {s : List Byte} (h : RE.Accepts r s) :
    ∀ c, r = .plus (.cls c) → s ≠ [] ∧ s.all c = true := by
  induction h with
  | text l => intro c hc; cases hc
  | cls c x h => intro c hc; cases hc
  | plusOne r s h _ =>
    intro c hc
    cases hc
    cases h with
    | cls _ x hx => exact ⟨by simp, by simp [hx]⟩
  | plusMore r s u h _ _ ihu =>
    intro c hc
    cases hc
    cases h with
    | cls _ x hx =>
      have := ihu c rfl
      exact ⟨by simp, by simp [hx, this.2]⟩
  | seq r q s u _ _ _ _ => intro c hc; cases hc

theorem RE.accepts_plus_cls {c : Byte → Bool} {s : List Byte} :
    RE.Accepts (.plus (.cls c)) s ↔ s ≠ [] ∧ s.all c = true := by
  constructor
  · intro h; exact RE.accepts_plus_cls_aux h c rfl
  · rintro ⟨hne, hall⟩
    induction s with
    | nil => exact absurd rfl hne
    | cons x xs ih =>
      simp only [List.all_cons, Bool.and_eq_true] at hall
      cases xs with
      | nil => exact .plusOne _ _ (.cls c x hall.1)
      | cons y ys =>
        exact .plusMore _ [x] (y :: ys) (.cls c x hall.1) (ih (by simp) hall.2)

/-- The language of `hashRE` is the language described by `Matches`. -/
theorem hashRE_accepts_iff (s : List Byte) :
    hashRE.Accepts s ↔ ∃ v m t p salt key, Matches s v m t p salt key := by
  unfold hashRE Matches
  simp only [RE.accepts_seq, RE.accepts_text, RE.accepts_plus_cls]
  constructor
  · rintro ⟨_, _, rfl, rfl, v, _, rfl, hv, _, _, rfl, rfl, m, _, rfl, hm, _, _, rfl, rfl,
      t, _, rfl, ht, _, _, rfl, rfl, p, _, rfl, hp, _, _, rfl, rfl, salt, _, rfl, hsalt,
      _, key, rfl, rfl, hkey⟩
    exact ⟨v, m, t, p, salt, key, rfl, hv, hm, ht, hp, hsalt, hkey⟩
  · rintro ⟨v, m, t, p, salt, key, rfl, hv, hm, ht, hp, hsalt, hkey⟩
    exact ⟨_, _, rfl, rfl, v, _, rfl, hv, _, _, rfl, rfl, m, _, rfl, hm, _, _, rfl, rfl,
      t, _, rfl, ht, _, _, rfl, rfl, p, _, rfl, hp, _, _, rfl, rfl, salt, _, rfl, hsalt,
      _, key, rfl, rfl, hkey⟩

/-- The model of `FindStringSubmatch` finds a match exactly for the strings
that the expression accepts. -/
theorem FindStringSubmatch_ne_nil_iff (s : List Byte) :
    FindStringSubmatch s ≠ [] ↔ hashRE.Accepts s := by
  rw [hashRE_accepts_iff]
  constructor
  · intro h
    rcases FindStringSubmatch_cases s with h0 | ⟨v, m, t, p, salt, key, hm, _⟩
    · exact absurd h0 h
    · exact ⟨v, m, t, p, salt, key, hm⟩
  · rintro ⟨v, m, t, p, salt, key, hm⟩ h0
    exact not_Matches_of_nil h0 ⟨v, m, t, p, salt, key, hm⟩

theorem sextets_three (a b c : Byte) (rest : List Nat) :
    sextets (bitsOf a ++ (bitsOf b ++ (bitsOf c ++ rest))) =
      (a.val * 65536 + b.val * 256 + c.val) / 262144 % 64 ::
      (a.val * 65536 + b.val * 256 + c.val) / 4096 % 64 ::
      (a.val * 65536 + b.val * 256 + c.val) / 64 % 64 ::
      (a.val * 65536 + b.val * 256 + c.val) % 64 :: sextets rest := by
  have ha := a.isLt; have hb := b.isLt; have hc := c.isLt
  simp only [bitsOf, List.cons_append, List.nil_append, sextets, bitsValue, List.foldl_cons,
    List.foldl_nil, List.cons.injEq, and_true]
  refine ⟨?_, ?_, ?_, ?_, rfl⟩ <;> omega

theorem sextets_two (a b : Byte) :
    sextets (bitsOf a ++ bitsOf b) =
      [(a.val * 65536 + b.val * 256) / 262144 % 64,
       (a.val * 65536 + b.val * 256) / 4096 % 64,
       (a.val * 65536 + b.val * 256) / 64 % 64] := by
  have ha := a.isLt; have hb := b.isLt
  simp only [bitsOf, List.cons_append, List.nil_append, sextets, bitsValue, List.foldl_cons,
    List.foldl_nil, List.cons.injEq, and_true, List.length_cons, List.length_nil]
  refine ⟨?_, ?_, ?_⟩ <;> omega

theorem sextets_one (a : Byte) :
    sextets (bitsOf a) =
      [(a.val * 65536) / 262144 % 64, (a.val * 65536) / 4096 % 64] := by
  have ha := a.isLt
  simp only [bitsOf, sextets, bitsValue, List.foldl_cons,
    List.foldl_nil, List.cons.injEq, and_true, List.length_cons, List.length_nil]
  refine ⟨?_, ?_⟩ <;> omega

/-- The encoder computes the base64 text of RFC 4648 without padding. -/
theorem EncodeToString_eq_base64Spec (bs : List Byte) :
    EncodeToString bs = base64Spec bs := by
  unfold base64Spec
  induction bs using EncodeToString.induct with
  | case1 a b c rest ih =>
    simp only [EncodeToString, List.flatMap_cons, List.append_assoc, sextets_three, List.map_cons,
      encodeChar_mod, ← ih]
  | case2 a b =>
    simp only [EncodeToString, List.flatMap_cons, List.flatMap_nil, List.append_nil, sextets_two,
      List.map_cons, List.map_nil, encodeChar_mod]
  | case3 a =>
    simp only [EncodeToString, List.flatMap_cons, List.flatMap_nil, List.append_nil, sextets_one,
      List.map_cons, List.map_nil, encodeChar_mod]
  | case4 => simp [EncodeToString, sextets]

theorem not_accepts_of_nil {s : List Byte} (h : FindStringSubmatch s = []) :
    ¬ hashRE.Accepts s :=
  fun ha => (FindStringSubmatch_ne_nil_iff s).2 ha h

/-! ## Facts used by the later claims -/

/-- What a successful `Parse` says about its input: the string is in the
language, the version is `19`, the decimal fields fit the platform `int`, the
segments decode, and the fields of the result come from the groups. -/
theorem Parse_ok_inv {s k : List Byte} {q : Param} (h : Parse s = .ok (k, q)) :
    ∃ v m t p salt key, Matches s v m t p salt key ∧
      decValue 0 v = Version ∧ decValue 0 m < 2 ^ 63 ∧ decValue 0 t < 2 ^ 63 ∧
      decValue 0 p < 2 ^ 63 ∧
      DecodeString salt = .ok q.Salt ∧ DecodeString key = .ok k ∧
      q.Time = decValue 0 t % 2 ^ 32 ∧ q.Memory = decValue 0 m % 2 ^ 32 ∧
      q.Threads = decValue 0 p % 2 ^ 8 ∧ q.KeyLen = k.length % 2 ^ 32 := by
  rcases FindStringSubmatch_cases s with h0 | ⟨v, m, t, p, salt, key, hm, _⟩
  · rw [Parse_of_not_match h0] at h; cases h
  · refine ⟨v, m, t, p, salt, key, hm, ?_⟩
    rw [Parse_of_Matches hm, parseGroups_eq hm.2.1 hm.2.2.1 hm.2.2.2.1 hm.2.2.2.2.1] at h
    split at h
    · cases h
    split at h
    · cases h
    rename_i hver
    split at h
    · cases h
    rename_i hm63
    split at h
    · cases h
    rename_i ht63
    split at h
    · cases h
    rename_i hp63
    cases hs : DecodeString salt with
    | error e => rw [hs] at h; cases h
    | ok sb =>
      cases hk : DecodeString key with
      | error e => rw [hs, hk] at h; cases h
      | ok kb =>
        rw [hs, hk] at h
        simp only [Except.ok.injEq, Prod.mk.injEq] at h
        obtain ⟨rfl, rfl⟩ := h
        exact ⟨not_not.mp hver, not_not.mp hm63, not_not.mp ht63, not_not.mp hp63,
          rfl, rfl, rfl, rfl, rfl, rfl⟩

/-- The groups of a string of the language are determined by the string. -/
theorem Matches_unique {s v m t p salt key v2 m2 t2 p2 salt2 key2 : List Byte}
    (h : Matches s v m t p salt key) (h2 : Matches s v2 m2 t2 p2 salt2 key2) :
    v = v2 ∧ m = m2 ∧ t = t2 ∧ p = p2 ∧ salt = salt2 ∧ key = key2 := by
  have e := FindStringSubmatch_of_Matches h
  rw [FindStringSubmatch_of_Matches h2] at e
  simp only [List.cons.injEq, true_and, and_true] at e
  obtain ⟨e1, e2, e3, e4, e5, e6⟩ := e
  exact ⟨e1.symm, e2.symm, e3.symm, e4.symm, e5.symm, e6.symm⟩

theorem EncodeToString_eq_nil_iff (bs : List Byte) : EncodeToString bs = [] ↔ bs = [] := by
  constructor
  · intro h
    by_contra hne
    exact EncodeToString_ne_nil hne h
  · rintro rfl; simp [EncodeToString]

/-- Two texts made of a run of a class followed by a byte outside the class
are equal only when the runs and the rests are. -/
theorem append_stop_unique (P : Byte → Bool) {a1 a2 r1 r2 : List Byte} {c1 c2 : Byte}
    (h1 : a1.all P = true) (h2 : a2.all P = true) (hc1 : P c1 = false) (hc2 : P c2 = false)
    (h : a1 ++ c1 :: r1 = a2 ++ c2 :: r2) : a1 = a2 ∧ r1 = r2 := by
  have t1 : (a1 ++ c1 :: r1).takeWhile P = a1 := by
    rw [List.takeWhile_append_of_pos (by simpa [List.all_eq_true] using h1)]
    simp [List.takeWhile_cons, hc1]
  have t2 : (a2 ++ c2 :: r2).takeWhile P = a2 := by
    rw [List.takeWhile_append_of_pos (by simpa [List.all_eq_true] using h2)]
    simp [List.takeWhile_cons, hc2]
  have ha : a1 = a2 := by rw [← t1, ← t2, h]
  subst ha
  have := List.append_cancel_left h
  simp only [List.cons.injEq] at this
  exact ⟨rfl, this.2⟩

theorem formatDec_injective {a b : Nat} (h : formatDec a = formatDec b) : a = b := by
  rw [← decValue_formatDec a, ← decValue_formatDec b, h]

theorem EncodeToString_injective {a b : List Byte} (h : EncodeToString a = EncodeToString b) :
    a = b := by
  have ha := DecodeString_EncodeToString a
  rw [h, DecodeString_EncodeToString b] at ha
  simpa using ha.symm

/-- The fields that `Stringify` writes can be read off its result. -/
theorem Stringify_injective {k1 k2 : List Byte} {p1 p2 : Param}
    (h : Stringify k1 p1 = Stringify k2 p2) :
    k1 = k2 ∧ p1.Salt = p2.Salt ∧ p1.Memory = p2.Memory ∧ p1.Time = p2.Time ∧
      p1.Threads = p2.Threads := by
  rw [Stringify_eq, Stringify_eq, lit2, lit3, lit4, lit5] at h
  have h := List.append_cancel_left (List.append_cancel_left h)
  simp only [List.cons_append, List.nil_append, List.cons.injEq, true_and] at h
  obtain ⟨hm, h⟩ := append_stop_unique isDigit (formatDec_all_isDigit _)
    (formatDec_all_isDigit _) (by decide) (by decide) h
  simp only [List.cons.injEq, true_and] at h
  obtain ⟨ht, h⟩ := append_stop_unique isDigit (formatDec_all_isDigit _)
    (formatDec_all_isDigit _) (by decide) (by decide) h
  simp only [List.cons.injEq, true_and] at h
  obtain ⟨hth, h⟩ := append_stop_unique isDigit (formatDec_all_isDigit _)
    (formatDec_all_isDigit _) (by decide) (by decide) h
  obtain ⟨hs, hk⟩ := append_stop_unique notDollar (EncodeToString_all_notDollar _)
    (EncodeToString_all_notDollar _) (by decide) (by decide) h
  exact ⟨EncodeToString_injective hk, EncodeToString_injective hs, formatDec_injective hm,
    formatDec_injective ht, formatDec_injective hth⟩

/-- What `Hash` returns when the salt has been generated: the text of the key
that the primitive returns for parallelism `numCPU % 256`, or nothing when the
primitive panics. -/
theorem Hash_eq (IDKey : KDF) (r : Rand) (numCPU : Nat) (password : List Byte)
    (hrand : (generateRandomSalt r 16).2 = none) :
    Hash IDKey r numCPU password =
      (IDKey password (generateRandomSalt r 16).1 1 65536 (numCPU % 256) 32).map
        (fun key => Stringify key
          { Salt := (generateRandomSalt r 16).1, Time := 1, Memory := 65536,
            Threads := numCPU % 256, KeyLen := 32 }) := by
  have he : r.err = none := hrand
  simp only [Hash, generateRandomSalt, Rand.Read, he, Nat.reduceMul]
  cases IDKey password (List.map r.bytes (List.range (List.replicate 16 (0 : Byte)).length))
    1 65536 (numCPU % 256) 32 <;> rfl

theorem Hash_of_err (IDKey : KDF) (r : Rand) (numCPU : Nat) (password : List Byte)
    {e : Error} (hrand : (generateRandomSalt r 16).2 = some e) :
    Hash IDKey r numCPU password = some [] := by
  have he : r.err = some e := hrand
  simp only [Hash, generateRandomSalt, Rand.Read, he]

theorem Stringify_ne_nil (key : List Byte) (p : Param) : Stringify key p ≠ [] := by
  rw [Stringify_eq, lit1]; simp

/-- What `Hash` returns, and how `Parse` reads it, when the salt has been
generated and the primitive returns a key of 32 bytes. -/
theorem Hash_Parse {IDKey : KDF} {r : Rand} {numCPU : Nat} {password key : List Byte}
    (hrand : (generateRandomSalt r 16).2 = none)
    (hkey : IDKey password (generateRandomSalt r 16).1 1 65536 (numCPU % 256) 32 = some key)
    (hlen : key.length = 32) :
    Hash IDKey r numCPU password =
      some (Stringify key
        { Salt := (generateRandomSalt r 16).1, Time := 1, Memory := 65536,
          Threads := numCPU % 256, KeyLen := 32 }) ∧
    hashRE.Accepts (Stringify key
        { Salt := (generateRandomSalt r 16).1, Time := 1, Memory := 65536,
          Threads := numCPU % 256, KeyLen := 32 }) ∧
    Parse (Stringify key
        { Salt := (generateRandomSalt r 16).1, Time := 1, Memory := 65536,
          Threads := numCPU % 256, KeyLen := 32 }) =
      .ok (key, { Salt := (generateRandomSalt r 16).1, Time := 1, Memory := 65536,
                  Threads := numCPU % 256, KeyLen := 32 }) := by
  have hth : numCPU % 256 < 256 := Nat.mod_lt _ (by decide)
  have hk : key ≠ [] := ne_nil_of_length_pos (by rw [hlen]; decide)
  have hs : (generateRandomSalt r 16).1 ≠ [] :=
    ne_nil_of_length_pos (by rw [generateRandomSalt_length]; decide)
  have hP := @Parse_Stringify key
    { Salt := (generateRandomSalt r 16).1, Time := 1, Memory := 65536,
      Threads := numCPU % 256, KeyLen := 32 }
    hk hs ⟨by norm_num, by norm_num, hth, by norm_num⟩
  have hM := @Matches_Stringify key
    { Salt := (generateRandomSalt r 16).1, Time := 1, Memory := 65536,
      Threads := numCPU % 256, KeyLen := 32 } hk hs
  refine ⟨?_, (hashRE_accepts_iff _).2 ⟨_, _, _, _, _, _, hM⟩, ?_⟩
  · rw [Hash_eq IDKey r numCPU password hrand, hkey]; rfl
  · rw [hP, hlen]; rfl

/-- A call of `Hash` that returns a non-empty string has generated its salt
and obtained a key from the primitive, and returns the text of that key with
the parameters of `Hash`. -/
theorem Hash_some_inv {IDKey : KDF} {r : Rand} {numCPU : Nat} {password h : List Byte}
    (hH : Hash IDKey r numCPU password = some h) (hne : h ≠ []) :
    (generateRandomSalt r 16).2 = none ∧
    ∃ key, IDKey password (generateRandomSalt r 16).1 1 65536 (numCPU % 256) 32 = some key ∧
      h = Stringify key
        { Salt := (generateRandomSalt r 16).1, Time := 1, Memory := 65536,
          Threads := numCPU % 256, KeyLen := 32 } := by
  cases hr : (generateRandomSalt r 16).2 with
  | some e =>
    rw [Hash_of_err IDKey r numCPU password hr] at hH
    exact absurd (Option.some.inj hH).symm hne
  | none =>
    refine ⟨rfl, ?_⟩
    rw [Hash_eq IDKey r numCPU password hr] at hH
    cases hk : IDKey password (generateRandomSalt r 16).1 1 65536 (numCPU % 256) 32 with
    | none => rw [hk] at hH; cases hH
    | some key =>
      rw [hk] at hH
      exact ⟨key, rfl, (Option.some.inj hH).symm⟩

/-- The round trip of `Hash` and `Verify` when the salt has been generated and
the primitive returns a key of 32 bytes. -/
theorem Verify_Hash_of_key {IDKey : KDF} {r : Rand} {numCPU : Nat}
    {password key : List Byte}
    (hrand : (generateRandomSalt r 16).2 = none)
    (hkey : IDKey password (generateRandomSalt r 16).1 1 65536 (numCPU % 256) 32 = some key)
    (hlen : key.length = 32) :
    ∃ h, Hash IDKey r numCPU password = some h ∧ h ≠ [] ∧
      Verify IDKey password h = some true := by
  obtain ⟨hH, _, hP⟩ := @Hash_Parse IDKey r numCPU password key hrand hkey hlen
  refine ⟨_, hH, Stringify_ne_nil _ _, ?_⟩
  rw [Verify_iff]
  exact ⟨_, _, hP, hkey⟩

/-- With a parallelism of zero the primitive panics and `Hash` returns
nothing. -/
theorem Hash_panics {IDKey : KDF} {r : Rand} {numCPU : Nat} (password : List Byte)
    (hc : KDF.Contract IDKey) (hrand : (generateRandomSalt r 16).2 = none)
    (h0 : numCPU % 256 = 0) : Hash IDKey r numCPU password = none := by
  rw [Hash_eq IDKey r numCPU password hrand,
    (hc password (generateRandomSalt r 16).1 1 65536 (numCPU % 256) 32).1
      (Or.inr (by omega))]
  rfl

/-- Tampering with the key segment.  Let the primitive return `key`, of
`p.KeyLen` bytes, for password `P` and a `Param` `p` with non-empty salt and
non-zero key length, so that `Verify` accepts `Stringify(key, p)`.  Replacing
one character `c` of the key segment by a different character `c'` other than
the carriage return makes `Verify` return `false`.  (A carriage return is
skipped by the decoder, so that the tampered segment decodes to a shorter key
and the outcome depends on what the primitive derives for that shorter
length.) -/
theorem Verify_tampered (IDKey : KDF) (password key : List Byte) (p : Param)
    (a b : List Byte) (c c' : Byte)
    (hK : IDKey password p.Salt p.Time p.Memory p.Threads p.KeyLen = some key)
    (hlen : key.length = p.KeyLen)
    (hp : p.InRange) (hklen : p.KeyLen ≠ 0) (hsalt : p.Salt ≠ [])
    (hseg : EncodeToString key = a ++ c :: b)
    (hne : c' ≠ c) (hcr : c'.val ≠ 13) :
    Stringify key p = hashPrefix p ++ (a ++ c :: b) ∧
    Verify IDKey password (hashPrefix p ++ (a ++ c :: b)) = some true ∧
    Verify IDKey password (hashPrefix p ++ (a ++ c' :: b)) = some false := by
  have hkey : key ≠ [] := ne_nil_of_length_pos (by rw [hlen]; omega)
  have hKL : p.KeyLen < 2 ^ 32 := hp.2.2.2
  have hS := Stringify_eq_hashPrefix key p
  rw [hseg] at hS
  refine ⟨hS, ?_, ?_⟩
  · rw [← hS, Verify_iff]
    refine ⟨_, _, Parse_Stringify hkey hsalt hp, ?_⟩
    simp only [hlen, Nat.mod_eq_of_lt hKL]
    exact hK
  · have hP := @Parse_hashPrefix p (a ++ c' :: b) hsalt hp
    split at hP
    · exact Verify_of_error hP
    · cases hdec : DecodeString (a ++ c' :: b) with
      | error e => rw [hdec] at hP; exact Verify_of_error hP
      | ok kb =>
        rw [hdec] at hP
        rename_i hk
        simp only [Bool.or_eq_true, Bool.not_eq_true', not_or, Bool.not_eq_false,
          List.isEmpty_iff] at hk
        have hc10 : c'.val ≠ 10 := by
          have := hk.2
          rw [List.all_eq_true] at this
          simpa [notNewline] using this c' (by simp)
        have hnl : ∀ x ∈ a ++ c' :: b, x.val ≠ 10 ∧ x.val ≠ 13 := by
          intro x hx
          have hmem := EncodeToString_no_NL key
          rw [hseg] at hmem
          simp only [List.mem_append, List.mem_cons] at hx
          rcases hx with hx | rfl | hx
          · exact hmem x (by simp [hx])
          · exact ⟨hc10, hcr⟩
          · exact hmem x (by simp [hx])
        have henc : a ++ c' :: b = EncodeToString kb := by
          rw [← DecodeString_inv hdec, stripNL_eq_self hnl]
        have hl1 := EncodeToString_length kb
        have hl2 := EncodeToString_length key
        rw [← henc] at hl1
        rw [hseg, hlen] at hl2
        simp only [List.length_append, List.length_cons] at hl1 hl2
        have hkb : kb.length = p.KeyLen := by omega
        have hK2 : IDKey password p.Salt p.Time p.Memory p.Threads (kb.length % 2 ^ 32)
            = some key := by
          rw [hkb, Nat.mod_eq_of_lt hKL]; exact hK
        rw [Verify_of_ok hP hK2]
        have hkk : kb ≠ key := by
          intro h
          rw [h] at henc
          rw [← henc] at hseg
          have := List.append_cancel_left hseg
          simp only [List.cons.injEq, and_true] at this
          exact hne this
        simp [hkk]

/-- An instance of `Verify_tampered`: the first character `Q` of the key
segment of a sample hash is replaced by `R`. -/
theorem Verify_tampered_sample :
    Verify sampleKDF (lit "password")
      (hashPrefix sampleParam ++ ([] ++ 82 :: lit "UJDREVGR0hJSktMTU5PUFFSU1RVVldYWVpbXF1eX2A"))
      = some false :=
  (Verify_tampered sampleKDF (lit "password")
      ((List.range 32).map (fun i => byte (i + 65601))) sampleParam []
      (lit "UJDREVGR0hJSktMTU5PUFFSU1RVVldYWVpbXF1eX2A") 81 82 (by decide) (by decide)
      sampleParam_InRange (by decide) (by decide) (by decide) (by decide) (by decide)).2.2

/-- The carriage return is excluded in `Verify_tampered` for a reason: with
the stand-in primitive that returns `keyLen` zero bytes, replacing the last
character of the key segment by a carriage return leaves a hash that `Verify`
accepts, since the decoder skips the carriage return and the 31 bytes it
decodes are what that primitive derives for a key length of 31.  This says
nothing of `argon2.IDKey` itself. -/
theorem Verify_carriage_return_zeroKDF :
    KDF.Contract zeroKDF ∧
    (zeroKDF (lit "password") sampleParam.Salt sampleParam.Time
        sampleParam.Memory sampleParam.Threads sampleParam.KeyLen).map
        (fun key => Stringify key sampleParam)
      = some (hashPrefix sampleParam ++
          (lit "AAAAAAAAAAAAAAAAAAAAAAAAAAAAAAAAAAAAAAAAAA" ++ 65 :: [])) ∧
    Verify zeroKDF (lit "password")
      (hashPrefix sampleParam ++ (lit "AAAAAAAAAAAAAAAAAAAAAAAAAAAAAAAAAAAAAAAAAA" ++ 13 :: []))
      = some true :=
  ⟨zeroKDF_Contract, by decide, by decide⟩

/-! # The claims -/

/-- Claim C1: when salt generation succeeds and the primitive keeps its
contract, `Hash` returns a non-empty string that `Verify` accepts for the same
password on every host whose CPU count is not a multiple of 256; on a host
whose CPU count is a multiple of 256 the parallelism `uint8(n)` is zero, the
primitive panics and `Hash` returns nothing, so that there is no hash to
verify. -/
theorem Verify_Hash :
    (∀ (IDKey : KDF) (r : Rand) (numCPU : Nat) (password : List Byte),
      KDF.Contract IDKey → (generateRandomSalt r 16).2 = none → numCPU % 256 ≠ 0 →
      ∃ h, Hash IDKey r numCPU password = some h ∧ h ≠ [] ∧
        Verify IDKey password h = some true) ∧
    (∀ (IDKey : KDF) (r : Rand) (numCPU : Nat) (password : List Byte),
      KDF.Contract IDKey → (generateRandomSalt r 16).2 = none → numCPU % 256 = 0 →
      Hash IDKey r numCPU password = none) ∧
    KDF.Contract sampleKDF ∧ (generateRandomSalt sampleRand 16).2 = none ∧
    Hash sampleKDF sampleRand 256 (lit "correct horse battery staple") = none ∧
    (Hash sampleKDF sampleRand 8 (lit "correct horse battery staple")).bind
      (Verify sampleKDF (lit "correct horse battery staple")) = some true := by
  refine ⟨?_, ?_, sampleKDF_Contract, rfl, by decide, by decide⟩
  · intro IDKey r numCPU password hc hrand hn
    obtain ⟨key, hkey⟩ :=
      (hc password (generateRandomSalt r 16).1 1 65536 (numCPU % 256) 32).2.1
        (by decide) (by omega) (by decide)
    exact Verify_Hash_of_key hrand hkey
      ((hc password (generateRandomSalt r 16).1 1 65536 (numCPU % 256) 32).2.2 key hkey)
  · intro IDKey r numCPU password hc hrand h0
    exact Hash_panics password hc hrand h0

/-- Claim C2, amended: for a non-empty key and a `Param` with non-empty salt
(and fields within their Go types), `Parse` of `Stringify` succeeds and
returns the same key, the same `Salt`, `Time`, `Memory` and `Threads`, and
`KeyLen` equal to `len(key)` reduced modulo `2 ^ 32`, which is `len(key)`
itself for a key shorter than `2 ^ 32` bytes. -/
theorem Parse_Stringify_roundtrip (key : List Byte) (p : Param) (hkey : key ≠ [])
    (hsalt : p.Salt ≠ []) (hp : p.InRange) :
    Parse (Stringify key p) =
      .ok (key, { Salt := p.Salt, Time := p.Time, Memory := p.Memory,
                  Threads := p.Threads, KeyLen := key.length % 2 ^ 32 }) ∧
    (key.length < 2 ^ 32 → key.length % 2 ^ 32 = key.length) :=
  ⟨Parse_Stringify hkey hsalt hp, fun h => Nat.mod_eq_of_lt h⟩

/-- Witness of `Parse_Stringify_roundtrip` on a 13-byte key. -/
theorem Parse_Stringify_roundtrip_witness :
    lit "hello world!!" ≠ [] ∧ sampleParam.Salt ≠ [] ∧ sampleParam.InRange ∧
    Parse (Stringify (lit "hello world!!") sampleParam) =
      .ok (lit "hello world!!",
        { Salt := sampleParam.Salt, Time := sampleParam.Time, Memory := sampleParam.Memory,
          Threads := sampleParam.Threads,
          KeyLen := (lit "hello world!!").length % 2 ^ 32 }) :=
  ⟨by decide, by decide, sampleParam_InRange,
    (Parse_Stringify_roundtrip (lit "hello world!!") sampleParam (by decide) (by decide)
      sampleParam_InRange).1⟩

/-- Counterexample to claim C2 as stated: for a key of `2 ^ 32` bytes the
returned `KeyLen` is `0`, not the length of the key. -/
theorem Parse_Stringify_longKey :
    longKey ≠ [] ∧ sampleParam.Salt ≠ [] ∧ sampleParam.InRange ∧
    Parse (Stringify longKey sampleParam) =
      .ok (longKey, { Salt := sampleParam.Salt, Time := sampleParam.Time,
                      Memory := sampleParam.Memory, Threads := sampleParam.Threads,
                      KeyLen := 0 }) ∧
    longKey.length = 4294967296 := by
  have h := @Parse_Stringify longKey sampleParam longKey_ne_nil (by decide)
    sampleParam_InRange
  have e : 4294967296 % 2 ^ 32 = 0 := by norm_num
  rw [longKey_length, e] at h
  exact ⟨longKey_ne_nil, by decide, sampleParam_InRange, h, longKey_length⟩

/-- Claim C3: `Verify` returns `true` exactly when `Parse` succeeds and the
primitive, called with the parsed salt, costs and key length, returns a key
equal to the parsed key; when `Parse` fails, with whatever error, `Verify`
returns `false`; and `Verify` returns nothing exactly when `Parse` succeeds
and the primitive panics on the parsed parameters. -/
theorem Verify_characterisation (IDKey : KDF) (password h : List Byte) :
    (Verify IDKey password h = some true ↔
      ∃ key p, Parse h = .ok (key, p) ∧
        IDKey password p.Salt p.Time p.Memory p.Threads p.KeyLen = some key) ∧
    (∀ e, Parse h = .error e → Verify IDKey password h = some false) ∧
    (Verify IDKey password h = none ↔
      ∃ key p, Parse h = .ok (key, p) ∧
        IDKey password p.Salt p.Time p.Memory p.Threads p.KeyLen = none) :=
  ⟨Verify_iff IDKey password h, fun _ he => Verify_of_error he,
    Verify_none_iff IDKey password h⟩

/-- Witness of `Verify_characterisation` on a string that `Parse` rejects. -/
theorem Verify_characterisation_witness :
    Parse (lit "not-a-hash") = .error .ErrInvalidEncodedHash ∧
    Verify sampleKDF (lit "secret") (lit "not-a-hash") = some false :=
  ⟨by decide,
    (Verify_characterisation sampleKDF (lit "secret") (lit "not-a-hash")).2.1
      .ErrInvalidEncodedHash (by decide)⟩

/-- Claim C4, amended: when `Parse` fails, the error is
`ErrInvalidEncodedHash`, and then the string is not in the language of the
expression; or the string is in the language and the error is the range error
of `strconv` (an integer field of `2 ^ 63` or more), `ErrVersionMismatch` (a
version other than `19`), or the corrupt-input error of `base64` (a salt or
key segment that does not decode). -/
theorem Parse_error_kinds (s : List Byte) (e : Error) (h : Parse s = .error e) :
    (e = .ErrInvalidEncodedHash ∧ ¬ ∃ v m t p salt key, Matches s v m t p salt key) ∨
    ∃ v m t p salt key, Matches s v m t p salt key ∧
      ((e = .NumErrorRange ∧
          (2 ^ 63 ≤ decValue 0 v ∨ 2 ^ 63 ≤ decValue 0 m ∨ 2 ^ 63 ≤ decValue 0 t
            ∨ 2 ^ 63 ≤ decValue 0 p)) ∨
       (e = .ErrVersionMismatch ∧ decValue 0 v ≠ Version) ∨
       (e = .CorruptInputError ∧
          (DecodeString salt = .error e ∨ DecodeString key = .error e))) := by
  rcases FindStringSubmatch_cases s with h0 | ⟨v, m, t, p, salt, key, hm, _⟩
  · left
    rw [Parse_of_not_match h0] at h
    cases h
    exact ⟨rfl, not_Matches_of_nil h0⟩
  · right
    refine ⟨v, m, t, p, salt, key, hm, ?_⟩
    rw [Parse_of_Matches hm, parseGroups_eq hm.2.1 hm.2.2.1 hm.2.2.2.1 hm.2.2.2.2.1] at h
    split at h
    · cases h; left; exact ⟨rfl, Or.inl (by omega)⟩
    split at h
    · cases h; right; left; rename_i hne; exact ⟨rfl, hne⟩
    split at h
    · cases h; left; exact ⟨rfl, Or.inr (Or.inl (by omega))⟩
    split at h
    · cases h; left; exact ⟨rfl, Or.inr (Or.inr (Or.inl (by omega)))⟩
    split at h
    · cases h; left; exact ⟨rfl, Or.inr (Or.inr (Or.inr (by omega)))⟩
    right; right
    cases hs : DecodeString salt with
    | error e1 =>
      rw [hs] at h
      cases h
      exact ⟨DecodeString_error hs, Or.inl rfl⟩
    | ok sb =>
      rw [hs] at h
      cases hk : DecodeString key with
      | error e2 =>
        rw [hk] at h
        cases h
        exact ⟨DecodeString_error hk, Or.inr rfl⟩
      | ok kb =>
        rw [hk] at h
        cases h

/-- Witness of `Parse_error_kinds`: a key segment with a padding character is
in the language and fails with the corrupt-input error. -/
theorem Parse_error_kinds_witness :
    Parse (lit "$argon2id$v=19$m=65536,t=1,p=8$c2FsdA$a2V5=") = .error .CorruptInputError ∧
    ((Error.CorruptInputError = .ErrInvalidEncodedHash ∧
        ¬ ∃ v m t p salt key,
          Matches (lit "$argon2id$v=19$m=65536,t=1,p=8$c2FsdA$a2V5=") v m t p salt key) ∨
     ∃ v m t p salt key,
        Matches (lit "$argon2id$v=19$m=65536,t=1,p=8$c2FsdA$a2V5=") v m t p salt key ∧
        ((Error.CorruptInputError = .NumErrorRange ∧
            (2 ^ 63 ≤ decValue 0 v ∨ 2 ^ 63 ≤ decValue 0 m ∨ 2 ^ 63 ≤ decValue 0 t
              ∨ 2 ^ 63 ≤ decValue 0 p)) ∨
         (Error.CorruptInputError = .ErrVersionMismatch ∧ decValue 0 v ≠ Version) ∨
         (Error.CorruptInputError = .CorruptInputError ∧
            (DecodeString salt = .error .CorruptInputError ∨
              DecodeString key = .error .CorruptInputError)))) :=
  ⟨by decide,
    Parse_error_kinds (lit "$argon2id$v=19$m=65536,t=1,p=8$c2FsdA$a2V5=")
      .CorruptInputError (by decide)⟩

/-- Counterexample to claim C4 as stated: an invalid base64 key segment fails
with the corrupt-input error of `base64`, and an integer field that does not
fit 64 bits with the range error of `strconv`; neither error is
`ErrInvalidEncodedHash` or `ErrVersionMismatch`. -/
theorem Parse_other_errors :
    Parse (lit "$argon2id$v=19$m=65536,t=1,p=8$c2FsdA$a2V5=") = .error .CorruptInputError ∧
    Parse (lit "$argon2id$v=19$m=65536,t=1,p=8$c2F=dA$a2V5") = .error .CorruptInputError ∧
    Parse (lit "$argon2id$v=19$m=9223372036854775808,t=1,p=8$c2FsdA$a2V5")
      = .error .NumErrorRange ∧
    Error.CorruptInputError ≠ .ErrInvalidEncodedHash ∧
    Error.CorruptInputError ≠ .ErrVersionMismatch ∧
    Error.NumErrorRange ≠ .ErrInvalidEncodedHash ∧
    Error.NumErrorRange ≠ .ErrVersionMismatch := by
  decide

/-- Claim C5, amended: a string of the language whose version digits denote a
number other than `19` that fits the platform `int` (below `2 ^ 63`) makes
`Parse` fail with `ErrVersionMismatch`, whatever the other fields hold. -/
theorem Parse_version_mismatch (s v m t p salt key : List Byte)
    (hm : Matches s v m t p salt key) (hne : decValue 0 v ≠ Version)
    (hfit : decValue 0 v < 2 ^ 63) :
    Parse s = .error .ErrVersionMismatch := by
  rw [Parse_of_Matches hm, parseGroups_eq hm.2.1 hm.2.2.1 hm.2.2.2.1 hm.2.2.2.2.1,
    if_neg (not_not.mpr hfit), if_pos hne]

/-- Witness of `Parse_version_mismatch`: version `16` on an otherwise valid
hash. -/
theorem Parse_version_mismatch_witness :
    Matches (lit "$argon2id$v=16$m=65536,t=1,p=8$c2FsdA$a2V5") (lit "16") (lit "65536")
      (lit "1") (lit "8") (lit "c2FsdA") (lit "a2V5") ∧
    decValue 0 (lit "16") ≠ Version ∧ decValue 0 (lit "16") < 2 ^ 63 ∧
    Parse (lit "$argon2id$v=16$m=65536,t=1,p=8$c2FsdA$a2V5") = .error .ErrVersionMismatch :=
  ⟨by unfold Matches; decide, by decide, by decide,
    Parse_version_mismatch _ (lit "16") (lit "65536") (lit "1") (lit "8") (lit "c2FsdA")
      (lit "a2V5") (by unfold Matches; decide) (by decide) (by decide)⟩

/-- Counterexample to claim C5 as stated: the version `9223372036854775808`
differs from `19` in a string of the language, and `Parse` fails with the range
error of `strconv`, not with `ErrVersionMismatch`. -/
theorem Parse_version_out_of_range :
    Matches (lit "$argon2id$v=9223372036854775808$m=65536,t=1,p=8$c2FsdA$a2V5")
      (lit "9223372036854775808") (lit "65536") (lit "1") (lit "8") (lit "c2FsdA")
      (lit "a2V5") ∧
    decValue 0 (lit "9223372036854775808") ≠ Version ∧
    Parse (lit "$argon2id$v=9223372036854775808$m=65536,t=1,p=8$c2FsdA$a2V5")
      = .error .NumErrorRange := by
  refine ⟨by unfold Matches; decide, by decide, by decide⟩

/-- Claim C6: a string that the regular expression of `Parse` does not accept
(wrong or missing prefix, missing delimiter, non-digit integer field, empty
salt or key segment) makes `Parse` fail with `ErrInvalidEncodedHash`. -/
theorem Parse_malformed (s : List Byte) (h : ¬ hashRE.Accepts s) :
    Parse s = .error .ErrInvalidEncodedHash :=
  Parse_of_not_match (Decidable.byContradiction
    (fun h0 => h ((FindStringSubmatch_ne_nil_iff s).1 h0)))

/-- Witness of `Parse_malformed`: the empty string, `not-a-hash`, a wrong
prefix, a missing key segment, a non-digit memory field, an empty salt and an
empty key. -/
theorem Parse_malformed_witness :
    ¬ hashRE.Accepts (lit "") ∧
    Parse (lit "") = .error .ErrInvalidEncodedHash ∧
    ¬ hashRE.Accepts (lit "not-a-hash") ∧
    Parse (lit "not-a-hash") = .error .ErrInvalidEncodedHash ∧
    Parse (lit "$argon2i$v=19$m=65536,t=1,p=8$c2FsdA$a2V5") = .error .ErrInvalidEncodedHash ∧
    Parse (lit "$argon2id$v=19$m=65536,t=1,p=8$c2FsdA") = .error .ErrInvalidEncodedHash ∧
    Parse (lit "$argon2id$v=19$m=6x5536,t=1,p=8$c2FsdA$a2V5") = .error .ErrInvalidEncodedHash ∧
    Parse (lit "$argon2id$v=19$m=65536,t=1,p=8$$a2V5") = .error .ErrInvalidEncodedHash ∧
    Parse (lit "$argon2id$v=19$m=65536,t=1,p=8$c2FsdA$") = .error .ErrInvalidEncodedHash :=
  ⟨not_accepts_of_nil (by decide),
   Parse_malformed _ (not_accepts_of_nil (by decide)),
   not_accepts_of_nil (by decide),
   Parse_malformed _ (not_accepts_of_nil (by decide)),
   Parse_malformed _ (not_accepts_of_nil (by decide)),
   Parse_malformed _ (not_accepts_of_nil (by decide)),
   Parse_malformed _ (not_accepts_of_nil (by decide)),
   Parse_malformed _ (not_accepts_of_nil (by decide)),
   Parse_malformed _ (not_accepts_of_nil (by decide))⟩

/-- Claim C7: `Stringify` never fails and returns exactly the concatenation of
`$argon2id$v=`, the decimal text of `argon2.Version` (`19`), `$m=`, the decimal
text of `Memory`, `,t=`, that of `Time`, `,p=`, that of `Threads`, `$`, the
base64 text of the salt, `$` and the base64 text of the key.  The decimal text
has no leading zeros and denotes the number; the base64 text is the one of
RFC 4648 without padding: it uses only the 64 characters of the standard
alphabet (so no `=`), has `⌈4n/3⌉` characters for `n` bytes, and decodes back
to the bytes. -/
theorem Stringify_format (key : List Byte) (p : Param) :
    Stringify key p =
      lit "$argon2id$v=" ++ formatDec Version ++ lit "$m=" ++ formatDec p.Memory ++
        lit ",t=" ++ formatDec p.Time ++ lit ",p=" ++ formatDec p.Threads ++
        lit "$" ++ EncodeToString p.Salt ++ lit "$" ++ EncodeToString key ∧
    formatDec Version = lit "19" ∧
    (∀ n, Canonical (formatDec n) ∧ decValue 0 (formatDec n) = n) ∧
    encodeStd = lit "ABCDEFGHIJKLMNOPQRSTUVWXYZabcdefghijklmnopqrstuvwxyz0123456789+/" ∧
    (∀ bs, EncodeToString bs = base64Spec bs ∧
      (EncodeToString bs).all (fun c => decide (c ∈ encodeStd)) = true ∧
      (EncodeToString bs).length = (4 * bs.length + 2) / 3 ∧
      DecodeString (EncodeToString bs) = .ok bs) := by
  refine ⟨?_, by decide, fun n => ⟨formatDec_Canonical n, decValue_formatDec n⟩, rfl,
    fun bs => ⟨EncodeToString_eq_base64Spec bs, EncodeToString_all_mem bs,
      EncodeToString_length bs, DecodeString_EncodeToString bs⟩⟩
  rw [Stringify_eq]
  simp only [List.append_assoc]

/-- Claim C9, amended: when `Parse` succeeds on a string with salt segment
`salt` and key segment `key`, the salt segment without its carriage returns
and line feeds is exactly the base64 text of the returned salt, and the key
segment without its carriage returns is exactly the base64 text of the
returned key (it holds no line feed); no padding, no other foreign character
and no non-zero trailing bits are accepted. -/
theorem Parse_segments (s v m t p salt key k : List Byte) (q : Param)
    (hm : Matches s v m t p salt key) (hP : Parse s = .ok (k, q)) :
    stripNL salt = EncodeToString q.Salt ∧ stripNL key = EncodeToString k ∧
    key.all notNewline = true ∧
    (stripNL salt = salt → salt = EncodeToString q.Salt) ∧
    (stripNL key = key → key = EncodeToString k) := by
  rw [Parse_of_Matches hm, parseGroups_eq hm.2.1 hm.2.2.1 hm.2.2.2.1 hm.2.2.2.2.1] at hP
  split at hP
  · cases hP
  split at hP
  · cases hP
  split at hP
  · cases hP
  split at hP
  · cases hP
  split at hP
  · cases hP
  cases hs : DecodeString salt with
  | error e => rw [hs] at hP; cases hP
  | ok sb =>
    cases hk : DecodeString key with
    | error e => rw [hs, hk] at hP; cases hP
    | ok kb =>
      rw [hs, hk] at hP
      simp only [Except.ok.injEq, Prod.mk.injEq] at hP
      obtain ⟨rfl, rfl⟩ := hP
      have h1 := DecodeString_inv hs
      have h2 := DecodeString_inv hk
      exact ⟨h1, h2, hm.2.2.2.2.2.2.2, fun h => by rw [← h1, h], fun h => by rw [← h2, h]⟩

/-- Witness of `Parse_segments` on a hash with salt `salt` and key `key`. -/
theorem Parse_segments_witness :
    Matches (lit "$argon2id$v=19$m=65536,t=1,p=8$c2FsdA$a2V5") (lit "19") (lit "65536")
      (lit "1") (lit "8") (lit "c2FsdA") (lit "a2V5") ∧
    Parse (lit "$argon2id$v=19$m=65536,t=1,p=8$c2FsdA$a2V5") =
      .ok (lit "key", { Salt := lit "salt", Time := 1, Memory := 65536, Threads := 8,
                        KeyLen := 3 }) ∧
    stripNL (lit "c2FsdA") = EncodeToString (lit "salt") ∧
    stripNL (lit "a2V5") = EncodeToString (lit "key") :=
  by
  have hM : Matches (lit "$argon2id$v=19$m=65536,t=1,p=8$c2FsdA$a2V5") (lit "19")
      (lit "65536") (lit "1") (lit "8") (lit "c2FsdA") (lit "a2V5") := by
    unfold Matches; decide
  have h := Parse_segments (lit "$argon2id$v=19$m=65536,t=1,p=8$c2FsdA$a2V5") (lit "19")
    (lit "65536") (lit "1") (lit "8") (lit "c2FsdA") (lit "a2V5") (lit "key")
    { Salt := lit "salt", Time := 1, Memory := 65536, Threads := 8, KeyLen := 3 }
    hM (by decide)
  exact ⟨hM, by decide, h.1, h.2.1⟩

/-- Counterexample to claim C9 as stated: `Parse` accepts a salt segment with
a line feed in it and a key segment that ends in a carriage return; neither
segment is the base64 text of the bytes returned. -/
theorem Parse_accepts_newlines :
    Matches (lit "$argon2id$v=19$m=65536,t=1,p=8$c2Fs\ndA$a2V5\r") (lit "19") (lit "65536")
      (lit "1") (lit "8") (lit "c2Fs\ndA") (lit "a2V5\r") ∧
    Parse (lit "$argon2id$v=19$m=65536,t=1,p=8$c2Fs\ndA$a2V5\r") =
      .ok (lit "key", { Salt := lit "salt", Time := 1, Memory := 65536, Threads := 8,
                        KeyLen := 3 }) ∧
    lit "c2Fs\ndA" ≠ EncodeToString (lit "salt") ∧
    lit "a2V5\r" ≠ EncodeToString (lit "key") :=
  ⟨by unfold Matches; decide, by decide, by decide, by decide⟩

/-- Claim C10, amended: for every string `s` on which `Parse` succeeds with
`(key, p)` and which is written canonically (decimal fields without leading
zeros, memory and time below `2 ^ 32`, parallelism below `2 ^ 8`, no carriage
return or line feed in the salt and key segments), `Stringify(key, p) = s`;
hence no two distinct canonical strings decode to the same parameters and
key. -/
theorem Stringify_Parse (s k : List Byte) (q : Param) (hc : CanonicalHash s)
    (hP : Parse s = .ok (k, q)) :
    Stringify k q = s ∧
    ∀ s2, CanonicalHash s2 → Parse s2 = .ok (k, q) → s2 = s := by
  have h1 := Stringify_of_CanonicalHash hc hP
  refine ⟨h1, ?_⟩
  intro s2 hc2 hP2
  rw [← Stringify_of_CanonicalHash hc2 hP2, h1]

/-- Witness of `Stringify_Parse` on a canonical hash with salt `salt` and key
`key`. -/
theorem Stringify_Parse_witness :
    CanonicalHash (lit "$argon2id$v=19$m=65536,t=1,p=8$c2FsdA$a2V5") ∧
    Parse (lit "$argon2id$v=19$m=65536,t=1,p=8$c2FsdA$a2V5") =
      .ok (lit "key", { Salt := lit "salt", Time := 1, Memory := 65536, Threads := 8,
                        KeyLen := 3 }) ∧
    Stringify (lit "key")
        { Salt := lit "salt", Time := 1, Memory := 65536, Threads := 8, KeyLen := 3 }
      = lit "$argon2id$v=19$m=65536,t=1,p=8$c2FsdA$a2V5" :=
  ⟨CanonicalHash_sample, by decide,
    (Stringify_Parse (lit "$argon2id$v=19$m=65536,t=1,p=8$c2FsdA$a2V5") (lit "key")
      { Salt := lit "salt", Time := 1, Memory := 65536, Threads := 8, KeyLen := 3 }
      CanonicalHash_sample (by decide)).1⟩

/-- Counterexample to claim C10 as stated: `Parse` accepts a memory field
written `065536`, a parallelism field `264` and a key segment that ends in a
carriage return; `Stringify` of the result is a different string, and these
distinct strings decode to the same parameters and key. -/
theorem Stringify_Parse_not_identity :
    Parse (lit "$argon2id$v=19$m=065536,t=1,p=8$c2FsdA$a2V5") =
      .ok (lit "key", { Salt := lit "salt", Time := 1, Memory := 65536, Threads := 8,
                        KeyLen := 3 }) ∧
    Parse (lit "$argon2id$v=19$m=65536,t=1,p=264$c2FsdA$a2V5") =
      .ok (lit "key", { Salt := lit "salt", Time := 1, Memory := 65536, Threads := 8,
                        KeyLen := 3 }) ∧
    Parse (lit "$argon2id$v=19$m=65536,t=1,p=8$c2FsdA$a2V5\r") =
      .ok (lit "key", { Salt := lit "salt", Time := 1, Memory := 65536, Threads := 8,
                        KeyLen := 3 }) ∧
    Stringify (lit "key")
        { Salt := lit "salt", Time := 1, Memory := 65536, Threads := 8, KeyLen := 3 }
      = lit "$argon2id$v=19$m=65536,t=1,p=8$c2FsdA$a2V5" ∧
    lit "$argon2id$v=19$m=65536,t=1,p=8$c2FsdA$a2V5"
      ≠ lit "$argon2id$v=19$m=065536,t=1,p=8$c2FsdA$a2V5" ∧
    lit "$argon2id$v=19$m=65536,t=1,p=8$c2FsdA$a2V5"
      ≠ lit "$argon2id$v=19$m=65536,t=1,p=264$c2FsdA$a2V5" ∧
    lit "$argon2id$v=19$m=65536,t=1,p=8$c2FsdA$a2V5"
      ≠ lit "$argon2id$v=19$m=65536,t=1,p=8$c2FsdA$a2V5\r" := by
  decide

/-- Claim C11, amended: when `Parse` succeeds with `(key, p)`, `p.KeyLen` is
the number of bytes of the decoded key reduced to 32 bits, `len(key) mod 2^32`;
it is `len(key)` itself for a key shorter than `2 ^ 32` bytes, and it is not
read from the string. -/
theorem Parse_KeyLen (s k : List Byte) (q : Param) (h : Parse s = .ok (k, q)) :
    q.KeyLen = k.length % 2 ^ 32 ∧ (k.length < 2 ^ 32 → q.KeyLen = k.length) := by
  obtain ⟨v, m, t, p, salt, key, _, _, _, _, _, _, _, _, _, _, hk⟩ := Parse_ok_inv h
  exact ⟨hk, fun hlt => by rw [hk, Nat.mod_eq_of_lt hlt]⟩

/-- Witness of `Parse_KeyLen` on a hash with a three-byte key. -/
theorem Parse_KeyLen_witness :
    Parse (lit "$argon2id$v=19$m=65536,t=1,p=8$c2FsdA$a2V5") =
      .ok (lit "key", { Salt := lit "salt", Time := 1, Memory := 65536, Threads := 8,
                        KeyLen := 3 }) ∧
    (3 : Nat) = (lit "key").length % 2 ^ 32 :=
  ⟨by decide,
    (Parse_KeyLen (lit "$argon2id$v=19$m=65536,t=1,p=8$c2FsdA$a2V5") (lit "key")
      { Salt := lit "salt", Time := 1, Memory := 65536, Threads := 8, KeyLen := 3 }
      (by decide)).1⟩

/-- Counterexample to claim C11 as stated: the encoded hash of a key of
`2 ^ 32` bytes is parsed with `KeyLen = 0`, not with the length of the decoded
key. -/
theorem Parse_KeyLen_longKey :
    Parse (Stringify longKey
        { Salt := lit "salt", Time := 2, Memory := 1024, Threads := 1, KeyLen := 0 }) =
      .ok (longKey, { Salt := lit "salt", Time := 2, Memory := 1024, Threads := 1,
                      KeyLen := 0 }) ∧
    longKey.length = 4294967296 ∧ (0 : Nat) ≠ 4294967296 := by
  have h := @Parse_Stringify longKey
    { Salt := lit "salt", Time := 2, Memory := 1024, Threads := 1, KeyLen := 0 }
    longKey_ne_nil (by decide) (by unfold Param.InRange; norm_num)
  have e : 4294967296 % 2 ^ 32 = 0 := by norm_num
  rw [longKey_length, e] at h
  exact ⟨h, longKey_length, by decide⟩

/-- Claim C12, amended: when `Parse` succeeds with `(key, p)` on a string with
decimal fields `m`, `t`, `p` and segments `salt` and `key`, the numeric fields
are within their widths, `Time` and `Memory` are the fields `t` and `m`
reduced modulo `2 ^ 32`, `Threads` is the field `p` reduced modulo `2 ^ 8`
(each may be zero), and `KeyLen` is `len(key)` modulo `2 ^ 32`; the two
segments are not empty, and the decoded salt and key are not empty exactly
when their segment holds a character other than carriage return and line
feed. -/
theorem Parse_fields (s v m t p salt key k : List Byte) (q : Param)
    (hm : Matches s v m t p salt key) (hP : Parse s = .ok (k, q)) :
    q.InRange ∧
    q.Time = decValue 0 t % 2 ^ 32 ∧ q.Memory = decValue 0 m % 2 ^ 32 ∧
    q.Threads = decValue 0 p % 2 ^ 8 ∧ q.KeyLen = k.length % 2 ^ 32 ∧
    salt ≠ [] ∧ key ≠ [] ∧
    (q.Salt ≠ [] ↔ stripNL salt ≠ []) ∧ (k ≠ [] ↔ stripNL key ≠ []) := by
  obtain ⟨v2, m2, t2, p2, salt2, key2, hm2, _, _, _, _, hs, hk, hT, hM, hTh, hK⟩ :=
    Parse_ok_inv hP
  obtain ⟨_, rfl, rfl, rfl, rfl, rfl⟩ := Matches_unique hm hm2
  have e1 := DecodeString_inv hs
  have e2 := DecodeString_inv hk
  refine ⟨⟨?_, ?_, ?_, ?_⟩, hT, hM, hTh, hK, hm.2.2.2.2.2.1.1, hm.2.2.2.2.2.2.1, ?_, ?_⟩
  · rw [hT]; exact Nat.mod_lt _ (by norm_num)
  · rw [hM]; exact Nat.mod_lt _ (by norm_num)
  · rw [hTh]; exact Nat.mod_lt _ (by norm_num)
  · rw [hK]; exact Nat.mod_lt _ (by norm_num)
  · rw [e1, Ne, Ne, EncodeToString_eq_nil_iff]
  · rw [e2, Ne, Ne, EncodeToString_eq_nil_iff]

/-- Witness of `Parse_fields` on a hash with salt `salt` and key `key`. -/
theorem Parse_fields_witness :
    Matches (lit "$argon2id$v=19$m=65536,t=1,p=8$c2FsdA$a2V5") (lit "19") (lit "65536")
      (lit "1") (lit "8") (lit "c2FsdA") (lit "a2V5") ∧
    Parse (lit "$argon2id$v=19$m=65536,t=1,p=8$c2FsdA$a2V5") =
      .ok (lit "key", { Salt := lit "salt", Time := 1, Memory := 65536, Threads := 8,
                        KeyLen := 3 }) ∧
    (1 : Nat) = decValue 0 (lit "1") % 2 ^ 32 ∧
    (65536 : Nat) = decValue 0 (lit "65536") % 2 ^ 32 ∧
    (8 : Nat) = decValue 0 (lit "8") % 2 ^ 8 :=
  by
  have hM : Matches (lit "$argon2id$v=19$m=65536,t=1,p=8$c2FsdA$a2V5") (lit "19")
      (lit "65536") (lit "1") (lit "8") (lit "c2FsdA") (lit "a2V5") := by
    unfold Matches; decide
  have h := Parse_fields (lit "$argon2id$v=19$m=65536,t=1,p=8$c2FsdA$a2V5") (lit "19")
    (lit "65536") (lit "1") (lit "8") (lit "c2FsdA") (lit "a2V5") (lit "key")
    { Salt := lit "salt", Time := 1, Memory := 65536, Threads := 8, KeyLen := 3 }
    hM (by decide)
  exact ⟨hM, by decide, h.2.1, h.2.2.1, h.2.2.2.1⟩

/-- Counterexample to claim C12 as stated: `Parse` accepts a hash whose memory,
time and parallelism are `0`, and a hash whose salt segment is a line feed and
whose key segment is a carriage return, for which the decoded salt and key are
empty and `KeyLen` is `0`. -/
theorem Parse_zero_fields :
    Parse (lit "$argon2id$v=19$m=0,t=0,p=0$c2FsdA$a2V5") =
      .ok (lit "key", { Salt := lit "salt", Time := 0, Memory := 0, Threads := 0,
                        KeyLen := 3 }) ∧
    Parse (lit "$argon2id$v=19$m=65536,t=1,p=8$\n$\r") =
      .ok ([], { Salt := [], Time := 1, Memory := 65536, Threads := 8, KeyLen := 0 }) := by
  decide

/-- Claim C13: for every password and every successfully generated salt, when
the primitive returns a key of `keyLen = 32` bytes for the parameters of
`Hash`, the generated salt has 16 bytes and `Hash` returns a string of the
encoded-hash grammar on which `Parse` succeeds with that key, that salt,
`Time = 1`, `Memory = 65536`, `KeyLen = 32` and the parallelism that `Hash`
passed to the primitive. -/
theorem Hash_parameters (IDKey : KDF) (r : Rand) (numCPU : Nat)
    (password key : List Byte)
    (hrand : (generateRandomSalt r 16).2 = none)
    (hkey : IDKey password (generateRandomSalt r 16).1 1 65536 (numCPU % 256) 32 = some key)
    (hlen : key.length = 32) :
    (generateRandomSalt r 16).1.length = 16 ∧
    ∃ h, Hash IDKey r numCPU password = some h ∧ hashRE.Accepts h ∧
      Parse h = .ok (key,
        { Salt := (generateRandomSalt r 16).1, Time := 1, Memory := 65536,
          Threads := numCPU % 256, KeyLen := 32 }) :=
  ⟨generateRandomSalt_length r 16, _, Hash_Parse hrand hkey hlen⟩

/-- Witness of `Hash_parameters` on the sample primitive and entropy source,
with eight CPUs. -/
theorem Hash_parameters_witness :
    (generateRandomSalt sampleRand 16).2 = none ∧
    sampleKDF (lit "correct horse battery staple") (generateRandomSalt sampleRand 16).1
      1 65536 (8 % 256) 32 = some ((List.range 32).map (fun i => byte (i + 65621))) ∧
    ((List.range 32).map (fun i => byte (i + 65621))).length = 32 ∧
    (generateRandomSalt sampleRand 16).1.length = 16 ∧
    ∃ h, Hash sampleKDF sampleRand 8 (lit "correct horse battery staple") = some h ∧
      hashRE.Accepts h ∧
      Parse h = .ok ((List.range 32).map (fun i => byte (i + 65621)),
        { Salt := (generateRandomSalt sampleRand 16).1, Time := 1, Memory := 65536,
          Threads := 8 % 256, KeyLen := 32 }) :=
  ⟨rfl, by decide, by decide,
    Hash_parameters sampleKDF sampleRand 8 (lit "correct horse battery staple")
      ((List.range 32).map (fun i => byte (i + 65621))) rfl (by decide) (by decide)⟩

/-- Claim C14: `Hash` returns the empty string exactly when salt generation
fails; `Stringify` never returns the empty string, so a call that generates
its salt never returns the empty string. -/
theorem Hash_empty_iff (IDKey : KDF) (r : Rand) (numCPU : Nat)
    (password : List Byte) :
    (Hash IDKey r numCPU password = some [] ↔
      ∃ e, (generateRandomSalt r 16).2 = some e) ∧
    (∀ key p, Stringify key p ≠ []) := by
  refine ⟨?_, Stringify_ne_nil⟩
  cases hr : (generateRandomSalt r 16).2 with
  | some e =>
    exact ⟨fun _ => ⟨e, rfl⟩, fun _ => Hash_of_err IDKey r numCPU password hr⟩
  | none =>
    rw [Hash_eq IDKey r numCPU password hr]
    constructor
    · intro hH
      cases hk : IDKey password (generateRandomSalt r 16).1 1 65536 (numCPU % 256) 32 with
      | none => rw [hk] at hH; cases hH
      | some key =>
        rw [hk] at hH
        exact absurd (Option.some.inj hH) (Stringify_ne_nil _ _)
    · rintro ⟨e, he⟩
      cases he

/-- Claim C15, at the failing inputs: the parallelism that `Hash` passes to
the primitive and writes in the `p=` field is `n mod 256`, for every
primitive and host; with 256 CPUs it is `0`, on which the primitive panics
and `Hash` returns nothing, and with 264 CPUs `Hash` returns what it returns
with 8 CPUs, a hash whose `p=` field is `8`. -/
theorem Hash_threads_wrap :
    (∀ (IDKey : KDF) (r : Rand) (numCPU : Nat) (password h : List Byte),
      Hash IDKey r numCPU password = some h → h ≠ [] →
      ∃ key, IDKey password (generateRandomSalt r 16).1 1 65536 (numCPU % 256) 32 = some key ∧
        h = Stringify key
          { Salt := (generateRandomSalt r 16).1, Time := 1, Memory := 65536,
            Threads := numCPU % 256, KeyLen := 32 }) ∧
    (∀ (IDKey : KDF) (r : Rand) (password : List Byte),
      KDF.Contract IDKey → (generateRandomSalt r 16).2 = none →
      Hash IDKey r 256 password = none) ∧
    Hash sampleKDF sampleRand 256 (lit "password") = none ∧
    Hash sampleKDF sampleRand 264 (lit "password") =
      Hash sampleKDF sampleRand 8 (lit "password") ∧
    (Hash sampleKDF sampleRand 264 (lit "password")).map Parse =
      some (.ok ((List.range 32).map (fun i => byte (i + 65601)),
        { Salt := (List.range 16).map (fun i => byte (7 * i + 1)), Time := 1,
          Memory := 65536, Threads := 8, KeyLen := 32 })) := by
  refine ⟨?_, ?_, by decide, by decide, by decide⟩
  · intro IDKey r numCPU password h hH hne
    exact (Hash_some_inv hH hne).2
  · intro IDKey r password hc hrand
    rw [Hash_eq IDKey r 256 password hrand,
      (hc password (generateRandomSalt r 16).1 1 65536 (256 % 256) 32).1
        (Or.inr (by decide))]
    rfl

/-- Claim C16: two successful calls of `Hash` for the same password, each
returning a non-empty string, whose generated salts differ: the salts have 16
bytes, the two strings are different, and `Verify` accepts each of them for
that password. -/
theorem Hash_salts_differ (IDKey : KDF) (r1 r2 : Rand) (numCPU : Nat)
    (password h1 h2 : List Byte) (hkdf : KDF.Contract IDKey)
    (hH1 : Hash IDKey r1 numCPU password = some h1) (hn1 : h1 ≠ [])
    (hH2 : Hash IDKey r2 numCPU password = some h2) (hn2 : h2 ≠ [])
    (hne : (generateRandomSalt r1 16).1 ≠ (generateRandomSalt r2 16).1) :
    (generateRandomSalt r1 16).1.length = 16 ∧
    (generateRandomSalt r2 16).1.length = 16 ∧
    h1 ≠ h2 ∧
    Verify IDKey password h1 = some true ∧
    Verify IDKey password h2 = some true := by
  obtain ⟨hr1, k1, hk1, rfl⟩ := Hash_some_inv hH1 hn1
  obtain ⟨hr2, k2, hk2, rfl⟩ := Hash_some_inv hH2 hn2
  have hl1 := (hkdf password (generateRandomSalt r1 16).1 1 65536 (numCPU % 256) 32).2.2 k1 hk1
  have hl2 := (hkdf password (generateRandomSalt r2 16).1 1 65536 (numCPU % 256) 32).2.2 k2 hk2
  obtain ⟨_, _, hP1⟩ := @Hash_Parse IDKey r1 numCPU password k1 hr1 hk1 hl1
  obtain ⟨_, _, hP2⟩ := @Hash_Parse IDKey r2 numCPU password k2 hr2 hk2 hl2
  refine ⟨generateRandomSalt_length r1 16, generateRandomSalt_length r2 16, ?_, ?_, ?_⟩
  · intro heq
    rw [heq, hP2] at hP1
    simp only [Except.ok.injEq, Prod.mk.injEq, Param.mk.injEq] at hP1
    exact hne hP1.2.1.symm
  · rw [Verify_iff]
    exact ⟨_, _, hP1, hk1⟩
  · rw [Verify_iff]
    exact ⟨_, _, hP2, hk2⟩

/-- Witness of `Hash_salts_differ` on the two sample entropy sources, with
eight CPUs. -/
theorem Hash_salts_differ_witness :
    KDF.Contract sampleKDF ∧
    Hash sampleKDF sampleRand 8 (lit "password") =
      some (lit "$argon2id$v=19$m=65536,t=1,p=8$AQgPFh0kKzI5QEdOVVxjag$QUJDREVGR0hJSktMTU5PUFFSU1RVVldYWVpbXF1eX2A") ∧
    Hash sampleKDF sampleRand2 8 (lit "password") =
      some (lit "$argon2id$v=19$m=65536,t=1,p=8$AgUICw4RFBcaHSAjJiksLw$QUJDREVGR0hJSktMTU5PUFFSU1RVVldYWVpbXF1eX2A") ∧
    (generateRandomSalt sampleRand 16).1 ≠ (generateRandomSalt sampleRand2 16).1 ∧
    lit "$argon2id$v=19$m=65536,t=1,p=8$AQgPFh0kKzI5QEdOVVxjag$QUJDREVGR0hJSktMTU5PUFFSU1RVVldYWVpbXF1eX2A" ≠
      lit "$argon2id$v=19$m=65536,t=1,p=8$AgUICw4RFBcaHSAjJiksLw$QUJDREVGR0hJSktMTU5PUFFSU1RVVldYWVpbXF1eX2A" ∧
    Verify sampleKDF (lit "password")
      (lit "$argon2id$v=19$m=65536,t=1,p=8$AQgPFh0kKzI5QEdOVVxjag$QUJDREVGR0hJSktMTU5PUFFSU1RVVldYWVpbXF1eX2A") = some true ∧
    Verify sampleKDF (lit "password")
      (lit "$argon2id$v=19$m=65536,t=1,p=8$AgUICw4RFBcaHSAjJiksLw$QUJDREVGR0hJSktMTU5PUFFSU1RVVldYWVpbXF1eX2A") = some true :=
  ⟨sampleKDF_Contract, by decide, by decide, by decide,
    (Hash_salts_differ sampleKDF sampleRand sampleRand2 8 (lit "password")
      (lit "$argon2id$v=19$m=65536,t=1,p=8$AQgPFh0kKzI5QEdOVVxjag$QUJDREVGR0hJSktMTU5PUFFSU1RVVldYWVpbXF1eX2A")
      (lit "$argon2id$v=19$m=65536,t=1,p=8$AgUICw4RFBcaHSAjJiksLw$QUJDREVGR0hJSktMTU5PUFFSU1RVVldYWVpbXF1eX2A")
      sampleKDF_Contract (by decide) (by decide) (by decide) (by decide) (by decide)).2.2⟩

/-- Claim C18: `Stringify` gives equal texts exactly for equal keys, salts,
memory, time and parallelism; the field `KeyLen` has no effect on the text. -/
theorem Stringify_eq_iff (k1 k2 : List Byte) (p1 p2 : Param) :
    (Stringify k1 p1 = Stringify k2 p2 ↔
      k1 = k2 ∧ p1.Salt = p2.Salt ∧ p1.Memory = p2.Memory ∧ p1.Time = p2.Time ∧
        p1.Threads = p2.Threads) ∧
    (∀ n, Stringify k1 { Salt := p1.Salt, Time := p1.Time, Memory := p1.Memory,
                         Threads := p1.Threads, KeyLen := n } = Stringify k1 p1) := by
  refine ⟨⟨Stringify_injective, ?_⟩, fun n => by rw [Stringify_eq, Stringify_eq]⟩
  rintro ⟨rfl, hs, hm, ht, hth⟩
  rw [Stringify_eq, Stringify_eq, hs, hm, ht, hth]

/-- Claim C19: on a string of the language with version `19`, segments that
decode, and decimal fields that fit the platform `int` (below `2 ^ 63`),
`Parse` succeeds with `Memory` and `Time` equal to the fields `m` and `t`
modulo `2 ^ 32` and `Threads` equal to the field `p` modulo `2 ^ 8`: a value
that does not fit its field is wrapped, not rejected, and one that fits is
returned as it is. -/
theorem Parse_truncates (s v m t p salt key sb kb : List Byte)
    (hM : Matches s v m t p salt key) (hv : decValue 0 v = Version)
    (hm : decValue 0 m < 2 ^ 63) (ht : decValue 0 t < 2 ^ 63) (hp : decValue 0 p < 2 ^ 63)
    (hs : DecodeString salt = .ok sb) (hk : DecodeString key = .ok kb) :
    Parse s = .ok (kb, { Salt := sb, Time := decValue 0 t % 2 ^ 32,
                         Memory := decValue 0 m % 2 ^ 32,
                         Threads := decValue 0 p % 2 ^ 8,
                         KeyLen := kb.length % 2 ^ 32 }) ∧
    (decValue 0 m < 2 ^ 32 → decValue 0 m % 2 ^ 32 = decValue 0 m) ∧
    (decValue 0 t < 2 ^ 32 → decValue 0 t % 2 ^ 32 = decValue 0 t) ∧
    (decValue 0 p < 2 ^ 8 → decValue 0 p % 2 ^ 8 = decValue 0 p) := by
  have hv63 : decValue 0 v < 2 ^ 63 := by rw [hv]; decide
  refine ⟨?_, fun h => Nat.mod_eq_of_lt h, fun h => Nat.mod_eq_of_lt h,
    fun h => Nat.mod_eq_of_lt h⟩
  rw [Parse_of_Matches hM, parseGroups_eq hM.2.1 hM.2.2.1 hM.2.2.2.1 hM.2.2.2.2.1,
    if_neg (not_not.mpr hv63), if_neg (not_not.mpr hv), if_neg (not_not.mpr hm),
    if_neg (not_not.mpr ht), if_neg (not_not.mpr hp), hs, hk]

/-- Witness of `Parse_truncates`: `m=4294967296` is read as `Memory = 0`,
`t=4294967297` as `Time = 1` and `p=256` as `Threads = 0`. -/
theorem Parse_truncates_witness :
    Matches (lit "$argon2id$v=19$m=4294967296,t=4294967297,p=256$c2FsdA$a2V5") (lit "19")
      (lit "4294967296") (lit "4294967297") (lit "256") (lit "c2FsdA") (lit "a2V5") ∧
    Parse (lit "$argon2id$v=19$m=4294967296,t=4294967297,p=256$c2FsdA$a2V5") =
      .ok (lit "key", { Salt := lit "salt", Time := 1, Memory := 0, Threads := 0,
                        KeyLen := 3 }) :=
  by
  have hM : Matches (lit "$argon2id$v=19$m=4294967296,t=4294967297,p=256$c2FsdA$a2V5")
      (lit "19") (lit "4294967296") (lit "4294967297") (lit "256") (lit "c2FsdA")
      (lit "a2V5") := by
    unfold Matches; decide
  have h := (Parse_truncates
    (lit "$argon2id$v=19$m=4294967296,t=4294967297,p=256$c2FsdA$a2V5") (lit "19")
    (lit "4294967296") (lit "4294967297") (lit "256") (lit "c2FsdA") (lit "a2V5")
    (lit "salt") (lit "key") hM (by decide) (by decide) (by decide) (by decide)
    (by decide) (by decide)).1
  exact ⟨hM, h⟩

end Argon2
